import Mathlib

/-!
A verification development for the uoverse wire protocol
(`ultimaonline-net` codec and `uoverse-server` framing layer).

The Rust codec is serde-driven: every packet body is assembled from a small
closed set of shapes (fixed-width big-endian integers, booleans, fixed byte
strings, NUL-terminated ASCII strings, repr-enums, structs/tuples/arrays,
and three list framings).  We embed that value model shallowly: `Sh` is the
shape grammar, `Val` the values, `serializeVal` the writer
(`ser.rs` / `types.rs` / `types/list.rs`), and `deserializeSh` the budgeted
reader (`de.rs`).  The packet envelope (`macros/src/lib.rs`) and the
per-phase framing decoder (`uoverse-server/macros/src/lib.rs`) sit on top.

Note on sources: the checked-in `ser.rs`, `error.rs` and `types.rs` are from
an older revision than `de.rs`, `types/list.rs` and the packet modules
(e.g. `de.rs` calls `Error::de`, which the checked-in `error.rs` does not
define, and the checked-in `ser.rs` panics on the enum used by
`ListTerm::serialize`).  Where the current revision of a definition is
missing, it is modelled from the spec; each such definition carries a
doc comment starting with "Modelled from the spec".
-/

namespace UOverse

/-! ## Big-endian bytes -/

/-- Big-endian byte emission of `v` in `w` bytes (`to_be_bytes` in `ser.rs`);
high bits beyond `w` bytes are dropped, matching the fixed-width integer. -/
def beBytes : Nat → Nat → List Nat
  | 0, _ => []
  | w + 1, v => beBytes w (v / 256) ++ [v % 256]

/-- Big-endian value of a byte list (`from_be_bytes` in `de.rs`). -/
def beVal (bs : List Nat) : Nat :=
  bs.foldl (fun a b => a * 256 + b) 0

theorem beBytes_length (w v : Nat) : (beBytes w v).length = w := by
  induction w generalizing v with
  | zero => rfl
  | succ w ih => simp [beBytes, ih]

theorem beVal_append (bs cs : List Nat) :
    beVal (bs ++ cs) = cs.foldl (fun a b => a * 256 + b) (beVal bs) := by
  simp [beVal, List.foldl_append]

theorem beVal_beBytes (w v : Nat) : beVal (beBytes w v) = v % 256 ^ w := by
  induction w generalizing v with
  | zero => simp [beBytes, beVal, Nat.mod_one]
  | succ w ih =>
    have h : beVal (beBytes w (v / 256) ++ [v % 256]) =
        beVal (beBytes w (v / 256)) * 256 + v % 256 := by
      simp [beVal_append, beVal]
    calc beVal (beBytes (w + 1) v) = beVal (beBytes w (v / 256)) * 256 + v % 256 := h
      _ = v / 256 % 256 ^ w * 256 + v % 256 := by rw [ih]
      _ = v % 256 ^ (w + 1) := by
          have h1 : v / 256 % 256 ^ w = v % (256 * 256 ^ w) / 256 :=
            (Nat.mod_mul_right_div_self v 256 (256 ^ w)).symm
          have h2 : (256 : Nat) * 256 ^ w = 256 ^ (w + 1) := by ring
          have h3 : v % 256 ^ (w + 1) % 256 = v % 256 := by
            exact Nat.mod_mod_of_dvd v (dvd_pow_self 256 (Nat.succ_ne_zero w))
          rw [h1, h2, ← h3]
          generalize v % 256 ^ (w + 1) = m
          omega

theorem beVal_beBytes_of_lt {w v : Nat} (h : v < 256 ^ w) :
    beVal (beBytes w v) = v := by
  rw [beVal_beBytes, Nat.mod_eq_of_lt h]

theorem beVal_replicate_zero (w : Nat) : beVal (List.replicate w 0) = 0 := by
  induction w with
  | zero => rfl
  | succ w ih =>
    have : List.replicate (w + 1) 0 = List.replicate w 0 ++ [0] := by
      rw [← List.replicate_succ']
    rw [this, beVal_append]
    simp [ih, beVal] at *
    simp [List.foldl, ih]

theorem beBytes_zero_eq_replicate (w : Nat) :
    beBytes w 0 = List.replicate w 0 := by
  induction w with
  | zero => rfl
  | succ w ih => rw [beBytes, Nat.zero_div, ih, Nat.zero_mod, ← List.replicate_succ']

end UOverse

namespace UOverse

/-! ## Error model -/

/-- Modelled from the spec: the tagged error enum of section 4.7
(`Io` / `Serialization` / `Deserialization` / `Data` / `Message`).
The checked-in `src/ultimaonline-net/src/error.rs` is from an older revision:
it lacks the `Error::de` constructor that `src/ultimaonline-net/src/de.rs`
calls and the `Serialization` / `Deserialization` variants the spec names.
`Io` carries a message standing in for the wrapped `std::io::Error`. -/
inductive Error where
  | Io : String → Error
  | Serialization : String → Error
  | Deserialization : String → Error
  | Data : String → Error
  | Message : String → Error
deriving Repr, DecidableEq

/-- `Error::de` as called by `de.rs` (Deserialization constructor). -/
def Error.de (msg : String) : Error := .Deserialization msg

/-- `Error::data` from `error.rs`. -/
def Error.data (msg : String) : Error := .Data msg

/-! ## Shape grammar of the serde value model

Each packet body is (by its derived `Serialize` / `Deserialize` impls plus
the custom impls in `types.rs` and `types/list.rs`) one of these shapes. -/

/-- Shapes of the wire value model (section 3 of the spec, as implemented by
`ser.rs` / `de.rs` / `types.rs` / `types/list.rs`).

* `word w`: a `w`-byte big-endian integer (u8/u16/u32/u64 and the signed
  sizes via their two's-complement bit patterns, which serde serializes
  through the unsigned writers in `ser.rs`);
* `boolSh`: one byte, decoder maps non-zero to true;
* `fixedStr n`: `FixedStr<n>` from `types.rs` — exactly `n` raw bytes
  (also used for `[u8; n]` fields, whose wire form is identical);
* `cstr`: a NUL-terminated ASCII string (`serialize_str` /
  `deserialize_string`);
* `enum w valid`: a `serde_repr` enum with a `w`-byte discriminant drawn
  from `valid`;
* `tup fields`: a struct / tuple / fixed array — fields in order;
* `listPref lw elem`: a count-prefixed list with an `lw`-byte big-endian
  count (`List<T, L>` from `types/list.rs`; the legacy
  `List<T, LEN_BITS>` of `types.rs` writes the same wire format for
  in-bounds lengths);
* `listTerm tw elem`: a terminator-delimited list with a `tw`-byte zero
  sentinel (`ListTerm<T, Term>`);
* `listNonTerm elem`: elements packed back-to-back (`ListNonTerm<T>`). -/
inductive Sh where
  | word (w : Nat)
  | boolSh
  | fixedStr (n : Nat)
  | cstr
  | enum (w : Nat) (valid : List Nat)
  | tup (fields : List Sh)
  | listPref (lw : Nat) (elem : Sh)
  | listTerm (tw : Nat) (elem : Sh)
  | listNonTerm (elem : Sh)
deriving Repr

/-- Values of the wire value model.  Each constructor carries the framing
metadata its Rust type knows statically (integer width, prefix width,
terminator width), mirroring how each `Serialize` impl drives `ser.rs`. -/
inductive Val where
  | word (w : Nat) (v : Nat)
  | bool (b : Bool)
  | fixedStr (bytes : List Nat)
  | cstr (s : List Nat)
  | enum (w : Nat) (v : Nat)
  | tup (vs : List Val)
  | listPref (lw : Nat) (elems : List Val)
  | listTerm (tw : Nat) (elems : List Val)
  | listNonTerm (elems : List Val)
deriving Repr

mutual

/-- Structural weight of a shape (termination measure for the decoder). -/
def shW : Sh → Nat
  | .word _ => 1
  | .boolSh => 1
  | .fixedStr _ => 1
  | .cstr => 1
  | .enum _ _ => 1
  | .tup shs => 1 + shWF shs
  | .listPref _ el => 1 + shW el
  | .listTerm _ el => 1 + shW el
  | .listNonTerm el => 1 + shW el

/-- Structural weight of a field list. -/
def shWF : List Sh → Nat
  | [] => 1
  | sh :: rest => 1 + shW sh + shWF rest

end

end UOverse

namespace UOverse

/-! ## The writer (serializer)

The per-shape byte emission.  Sources:

* integers / bools / bytes / NUL-terminated strings: `ser.rs`
  (`serialize_u8` .. `serialize_u64`, `serialize_bool`, `serialize_bytes`,
  `serialize_str`; structs, tuples and arrays concatenate their fields);
* `FixedStr`: `types.rs` (`serialize_bytes` after the `LEN <= u16::MAX`
  guard; the guard error goes through `ser::Error::custom`);
* `List<T, L>`: `types/list.rs` — the count is serialized first and the
  conversion failure for an out-of-range count goes through
  `ser::Error::custom` ("List length cannot fit into {} bits");
* element sequences (`Vec<T>`) and the `ListTerm` terminator:
  Modelled from the spec (section 4.1: elements are emitted back-to-back,
  `ListTerm` writes its elements then a Term-sized zero).  The checked-in
  `ser.rs` is from an older revision here: its `serialize_seq` writes a
  `u16` count for every `Vec` and its `serialize_newtype_variant` is
  `unimplemented!()`, both contradicted by the byte-exact serializer tests
  in `src/ultimaonline-net/src/packets/mobile.rs` and
  `src/ultimaonline-net/src/packets/entity.rs`.

`ser::Error::custom` and `de::Error::custom` are mapped to
`Serialization` / `Deserialization` as the spec's section 4.7 prescribes
(the checked-in `error.rs` predates those variants). -/

mutual

/-- Serialize one value to bytes (`ser.rs` with the custom impls of
`types.rs` / `types/list.rs`; see the section comment for sources). -/
def serializeVal : Val → Except Error (List Nat)
  | .word w v => .ok (beBytes w v)
  | .bool b => .ok [if b then 1 else 0]
  | .fixedStr bs =>
    if bs.length ≤ 65535 then .ok bs
    else .error (.Serialization ("FixedStr must have a length <= u16::MAX"))
  | .cstr s =>
    if s.all (fun b => b < 128) then .ok (s ++ [0])
    else .error (.Data ("non-ASCII string"))
  | .enum w v => .ok (beBytes w v)
  | .tup vs => serializeList vs
  | .listPref lw es =>
    if es.length < 256 ^ lw then
      match serializeList es with
      | .ok body => .ok (beBytes lw es.length ++ body)
      | .error e => .error e
    else
      .error (.Serialization ("List length cannot fit into " ++
        toString (8 * lw) ++ " bits"))
  | .listTerm tw es =>
    match serializeList es with
    | .ok body => .ok (body ++ beBytes tw 0)
    | .error e => .error e
  | .listNonTerm es => serializeList es

/-- Serialize a run of values back-to-back (struct fields, tuple and array
members, list elements). -/
def serializeList : List Val → Except Error (List Nat)
  | [] => .ok []
  | v :: vs =>
    match serializeVal v with
    | .ok bs =>
      match serializeList vs with
      | .ok rest => .ok (bs ++ rest)
      | .error e => .error e
    | .error e => .error e

end

/-- Modelled from the spec: the size probe of section 4.1 "runs the same
traversal without emitting bytes and returns the serialized length"
(`to_size` in `ser.rs`).  The checked-in `ser.rs` is from an older
revision whose `serialize_str` never adds to the probe's size, which the
`VersionResp` round-trip test in
`src/ultimaonline-net/src/packets/char_select.rs` contradicts. -/
def toSize (v : Val) : Except Error Nat :=
  (serializeVal v).map List.length

end UOverse

namespace UOverse

/-! ## Well-formed values

`wfVal sh v` says `v` has shape `sh` and satisfies the codec's encoding
constraints: integers and enum discriminants fit their width, enum
discriminants are declared, `FixedStr` content has exactly its declared
length (and the `LEN <= u16::MAX` guard holds), strings are ASCII without
interior NUL, count-prefixed lists fit their prefix, terminator lists have
a positive terminator width and every element's encoding is at least
terminator-sized and does not begin with a terminator-sized zero, and
non-terminated list elements have non-empty encodings. -/

/-- A terminator-list element whose encoding cannot be mistaken for the
terminator: at least `tw` bytes long with a non-zero leading `tw`-byte
big-endian value (the value the `ListTerm` decoder peeks). -/
def termElemOK (tw : Nat) (e : Val) : Bool :=
  match serializeVal e with
  | .ok bs => decide (tw ≤ bs.length) && decide (beVal (bs.take tw) ≠ 0)
  | .error _ => false

/-- A value with a non-empty encoding (needed for `ListNonTerm` elements:
the budget-driven element loop of `de.rs` advances only by reading). -/
def encNonEmpty (e : Val) : Bool :=
  match serializeVal e with
  | .ok bs => decide (0 < bs.length)
  | .error _ => false

mutual

/-- Well-formedness of a value at a shape (see section comment). -/
def wfVal : Sh → Val → Bool
  | .word w, .word w2 v => w2 == w && decide (v < 256 ^ w)
  | .boolSh, .bool _ => true
  | .fixedStr n, .fixedStr bs => bs.length == n && decide (n ≤ 65535)
  | .cstr, .cstr s => s.all (fun b => decide (0 < b) && decide (b < 128))
  | .enum w valid, .enum w2 v => w2 == w && valid.contains v && decide (v < 256 ^ w)
  | .tup shs, .tup vs => wfFields shs vs
  | .listPref lw el, .listPref lw2 es =>
    lw2 == lw && decide (es.length < 256 ^ lw) && wfAll el es
  | .listTerm tw el, .listTerm tw2 es =>
    tw2 == tw && decide (0 < tw) && wfAll el es && es.all (termElemOK tw)
  | .listNonTerm el, .listNonTerm es => wfAll el es && es.all encNonEmpty
  | _, _ => false

/-- Pointwise well-formedness of struct fields. -/
def wfFields : List Sh → List Val → Bool
  | [], [] => true
  | sh :: shs, v :: vs => wfVal sh v && wfFields shs vs
  | _, _ => false

/-- Well-formedness of all list elements at the element shape. -/
def wfAll (el : Sh) : List Val → Bool
  | [] => true
  | v :: vs => wfVal el v && wfAll el vs

end

end UOverse

namespace UOverse

/-! ## The reader (deserializer), from `de.rs`

`Deserializer` holds a buffered reader and a `remaining` byte budget.
`from_reader` seeds `remaining` with the caller's `size` and demands
`remaining == 0` afterwards.  Every charged read goes through
`track_read`, whose `checked_sub` failure is
`Error::de("read past end of serialized value")`; reads themselves pull
from the reader first (so the reader may be consumed even when the charge
fails, as in `impl_read_literal`).  Peeks (`fill_buf`) neither consume the
reader nor touch the budget. -/

/-- Deserializer state: the byte stream still in the reader, and the
`remaining` budget (`Deserializer { reader, remaining, .. }`). -/
structure DeState where
  stream : List Nat
  remaining : Nat
deriving Repr, DecidableEq

/-- Error message of `track_read`'s failed `checked_sub` (`de.rs`). -/
def pastEndMsg : String := "read past end of serialized value"

/-- Error message of `from_reader`'s leftover-budget check (`de.rs`). -/
def dataRemainsMsg : String := "data remains after deserializing value"

/-- Stand-in message for the reader's end-of-input `std::io::Error`. -/
def ioEofMsg : String := "failed to fill whole buffer"

/-- Stand-in message for `insufficient_buffer` in `de.rs` (a peek found
fewer buffered bytes than the peeked width; surfaced as `Io`). -/
def peekShortMsg : String := "insufficient buffer"

/-- One charged big-endian read of `w` bytes (`impl_read_literal` in the
non-peek branch, and `deserialize_u8` / `deserialize_bool`): the reader
is consumed first, then `track_read w` charges the budget.  On reader
exhaustion the result is `Io` (how much a failed `read_exact` consumes is
unspecified in Rust; the model consumes nothing). -/
def readBE (w : Nat) (s : DeState) : Except Error Nat × DeState :=
  if w ≤ s.stream.length then
    if w ≤ s.remaining then
      (.ok (beVal (s.stream.take w)), ⟨s.stream.drop w, s.remaining - w⟩)
    else
      (.error (Error.de pastEndMsg), ⟨s.stream.drop w, s.remaining⟩)
  else (.error (.Io ioEofMsg), s)

/-- One uncharged big-endian peek of `w` bytes (`impl_read_literal` in the
peek branch: `fill_buf` without `consume`). -/
def peekBE (w : Nat) (s : DeState) : Except Error Nat :=
  if w ≤ s.stream.length then .ok (beVal (s.stream.take w))
  else .error (.Io peekShortMsg)

/-- Split a stream at its first NUL byte (the `deserialize_string` loop:
`read_u8` until a zero), returning the content and the rest after the
terminator. -/
def splitNul : List Nat → Option (List Nat × List Nat)
  | [] => none
  | b :: rest =>
    if b = 0 then some ([], rest)
    else (splitNul rest).map (fun p => (b :: p.1, p.2))

end UOverse

namespace UOverse

/-- Read `n` raw bytes one at a time (the `FixedStr` visitor: `n`
`next_element::<u8>()` pulls, each a charged `read_u8`). -/
def deserializeBytes : Nat → DeState → Except Error (List Nat) × DeState
  | 0, s => (.ok [], s)
  | n + 1, s =>
    match readBE 1 s with
    | (.ok b, s1) =>
      match deserializeBytes n s1 with
      | (.ok bs, s2) => (.ok (b :: bs), s2)
      | (.error e, s2) => (.error e, s2)
    | (.error e, s1) => (.error e, s1)

mutual

/-- The budgeted deserializer of `de.rs`, one shape at a time.

* `word` / `boolSh`: `impl_read_literal` / `deserialize_u8` /
  `deserialize_bool` — a charged read;
* `fixedStr`: the `FixedStr` visitor reads its bytes through
  `deserialize_tuple`;
* `cstr`: the `deserialize_string` loop reads the reader to the first NUL
  and only then charges (`track_read(buffer.len() + 1)`), then rejects
  non-ASCII content with `Data` (the message is modelled from the spec's
  invariant 7, conflating the two string `Data` messages of `de.rs`);
* `enum`: `serde_repr` reads the discriminant, then rejects undeclared
  discriminants; the rejection is modelled from the spec (section 4.1:
  `Data("invalid variant")`), the checked-in `error.rs` predating the
  current error taxonomy;
* `tup`: `deserialize_tuple` / `deserialize_struct` — fields in order;
* `listPref`: the `List` visitor of `types/list.rs` — a charged count
  read, then exactly that many elements;
* `listTerm`: the `ListTerm` visitor — an uncharged terminator-sized peek
  before each element, stop-and-consume on zero (`unit_variant`:
  `consume` + `track_read`);
* `listNonTerm`: `deserialize_seq` — elements until `remaining == 0`.

The two unbounded loops carry fuel `stream.length + 1`; the no-progress
branch (a zero-width element, on which the Rust loops would not
terminate) yields a `Message` error that no catalog shape can reach. -/
def deserializeSh (sh : Sh) (s : DeState) : Except Error Val × DeState :=
  match sh with
  | .word w =>
    match readBE w s with
    | (.ok v, s1) => (.ok (.word w v), s1)
    | (.error e, s1) => (.error e, s1)
  | .boolSh =>
    match readBE 1 s with
    | (.ok v, s1) => (.ok (.bool (v != 0)), s1)
    | (.error e, s1) => (.error e, s1)
  | .fixedStr n =>
    match deserializeBytes n s with
    | (.ok bs, s1) => (.ok (.fixedStr bs), s1)
    | (.error e, s1) => (.error e, s1)
  | .cstr =>
    match splitNul s.stream with
    | none => (.error (.Io ioEofMsg), ⟨[], s.remaining⟩)
    | some (content, rest) =>
      if content.length + 1 ≤ s.remaining then
        if content.all (fun b => b < 128) then
          (.ok (.cstr content), ⟨rest, s.remaining - (content.length + 1)⟩)
        else
          (.error (.Data ("non-ASCII string encoding is unsupported")),
            ⟨rest, s.remaining - (content.length + 1)⟩)
      else (.error (Error.de pastEndMsg), ⟨rest, s.remaining⟩)
  | .enum w valid =>
    match readBE w s with
    | (.ok v, s1) =>
      if valid.contains v then (.ok (.enum w v), s1)
      else (.error (.Data ("invalid variant")), s1)
    | (.error e, s1) => (.error e, s1)
  | .tup shs =>
    match deserializeFields shs s with
    | (.ok vs, s1) => (.ok (.tup vs), s1)
    | (.error e, s1) => (.error e, s1)
  | .listPref lw el =>
    match readBE lw s with
    | (.ok n, s1) =>
      match deserializeCount el n s1 with
      | (.ok es, s2) => (.ok (.listPref lw es), s2)
      | (.error e, s2) => (.error e, s2)
    | (.error e, s1) => (.error e, s1)
  | .listTerm tw el =>
    match deserializeTermList el tw (s.stream.length + 1) s with
    | (.ok es, s1) => (.ok (.listTerm tw es), s1)
    | (.error e, s1) => (.error e, s1)
  | .listNonTerm el =>
    match deserializeNonTermList el (s.stream.length + 1) s with
    | (.ok es, s1) => (.ok (.listNonTerm es), s1)
    | (.error e, s1) => (.error e, s1)
termination_by (shW sh, 0)
decreasing_by all_goals (simp [shW, shWF]; omega)

/-- Struct / tuple fields in declaration order (`deserialize_tuple`). -/
def deserializeFields (shs : List Sh) (s : DeState) :
    Except Error (List Val) × DeState :=
  match shs with
  | [] => (.ok [], s)
  | sh :: rest =>
    match deserializeSh sh s with
    | (.ok v, s1) =>
      match deserializeFields rest s1 with
      | (.ok vs, s2) => (.ok (v :: vs), s2)
      | (.error e, s2) => (.error e, s2)
    | (.error e, s1) => (.error e, s1)
termination_by (shWF shs, 0)
decreasing_by all_goals (simp [shW, shWF]; omega)

/-- Exactly `n` elements (the count-driven `ListElements` visitor of
`types/list.rs`). -/
def deserializeCount (el : Sh) (n : Nat) (s : DeState) :
    Except Error (List Val) × DeState :=
  match n with
  | 0 => (.ok [], s)
  | n + 1 =>
    match deserializeSh el s with
    | (.ok v, s1) =>
      match deserializeCount el n s1 with
      | (.ok vs, s2) => (.ok (v :: vs), s2)
      | (.error e, s2) => (.error e, s2)
    | (.error e, s1) => (.error e, s1)
termination_by (shW el, n + 1)
decreasing_by all_goals (simp [shW, shWF]; omega)

/-- The `ListTerm` element loop: peek a terminator-sized value without
charging; zero means consume-and-charge the terminator and stop, non-zero
means decode one element and continue (`ListTermElementVisitor` backed by
`TerminatorEnum` / `TerminatorVariant` in `de.rs`). -/
def deserializeTermList (el : Sh) (tw : Nat) (fuel : Nat) (s : DeState) :
    Except Error (List Val) × DeState :=
  match fuel with
  | 0 => (.error (.Message ("list element decode made no progress")), s)
  | fuel + 1 =>
    match peekBE tw s with
    | .error e => (.error e, s)
    | .ok t =>
      if t = 0 then
        if tw ≤ s.remaining then
          (.ok [], ⟨s.stream.drop tw, s.remaining - tw⟩)
        else (.error (Error.de pastEndMsg), ⟨s.stream.drop tw, s.remaining⟩)
      else
        match deserializeSh el s with
        | (.ok v, s1) =>
          if s1.stream.length < s.stream.length then
            match deserializeTermList el tw fuel s1 with
            | (.ok vs, s2) => (.ok (v :: vs), s2)
            | (.error e, s2) => (.error e, s2)
          else (.error (.Message ("list element decode made no progress")), s1)
        | (.error e, s1) => (.error e, s1)
termination_by (shW el, fuel)
decreasing_by all_goals (simp [shW, shWF]; omega)

/-- The `ListNonTerm` element loop: elements until the budget is spent
(`deserialize_seq` in `de.rs` stops when `remaining == 0`). -/
def deserializeNonTermList (el : Sh) (fuel : Nat) (s : DeState) :
    Except Error (List Val) × DeState :=
  match fuel with
  | 0 => (.error (.Message ("list element decode made no progress")), s)
  | fuel + 1 =>
    if s.remaining = 0 then (.ok [], s)
    else
      match deserializeSh el s with
      | (.ok v, s1) =>
        if s1.stream.length < s.stream.length then
          match deserializeNonTermList el fuel s1 with
          | (.ok vs, s2) => (.ok (v :: vs), s2)
          | (.error e, s2) => (.error e, s2)
        else (.error (.Message ("list element decode made no progress")), s1)
      | (.error e, s1) => (.error e, s1)
termination_by (shW el, fuel)
decreasing_by all_goals (simp [shW, shWF]; omega)

end

end UOverse

namespace UOverse

/-- `from_reader` (`de.rs`): seed the budget with `size`, decode one value,
then demand the budget is exactly spent —
`Error::de("data remains after deserializing value")` otherwise. -/
def fromReader (sh : Sh) (stream : List Nat) (size : Nat) :
    Except Error Val × List Nat :=
  match deserializeSh sh ⟨stream, size⟩ with
  | (.ok v, s1) =>
    if s1.remaining = 0 then (.ok v, s1.stream)
    else (.error (Error.de dataRemainsMsg), s1.stream)
  | (.error e, s1) => (.error e, s1.stream)

/-! ## Packet descriptors and the envelope

From `src/ultimaonline-net/macros/src/lib.rs` (`packet_from_content` /
`content_from_packet`) and the constants the `packet` attribute attaches
to every packet type (`PACKET_ID`, `EXTENDED_ID`, `SIZE`). -/

/-- A packet descriptor: the constants the `packet` macro attaches to a
packet type, plus the body shape.  `name` distinguishes the Rust type
(two descriptors may share a wire id, like `PingReq` / `PingAck`).
`size` is `SIZE`: `Some n` for `fixed(id, size = n)` packets — `n` is the
declared body length, used by `from_packet_data` as the body budget — and
`None` for variable-size and extended packets.  `extId` is
`EXTENDED_ID`. -/
structure Desc where
  name : String
  id : Nat
  extId : Option Nat
  size : Option Nat
  sh : Sh
deriving Repr

/-- `packet_from_content` plus `Packet::to_writer` (`packets.rs`): the
envelope writer.  A `Packet { id, size, contents }` serializes as the id
byte, the optional `u16` size (`serialize_none` emits nothing), then the
contents.  For variable-size packets `size = 1 + 2 + to_size(contents)`;
for extended packets the contents are `(extended_id, contents)` and the
size also counts the extended id.  The `size as u16` cast truncates
modulo 2^16. -/
def encodePacket (d : Desc) (v : Val) : Except Error (List Nat) :=
  match serializeVal v with
  | .error e => .error e
  | .ok body =>
    match d.size, d.extId with
    | some _, _ => .ok (d.id :: body)
    | none, none =>
      .ok (d.id :: beBytes 2 ((1 + 2 + body.length) % 65536) ++ body)
    | none, some e =>
      .ok (d.id :: beBytes 2 ((1 + 2 + (2 + body.length)) % 65536) ++
        beBytes 2 e ++ body)

/-- `content_from_packet` (`from_packet_data`): read and check the id
byte, establish the body budget — the declared `SIZE` for fixed packets,
the wire `size` minus the header bytes otherwise — read and check the
extended id when the descriptor has one, then `from_reader` the body.
Header reads are plain reader reads (no budget).  Returns the result and
the unconsumed rest of the stream. -/
def fromPacketData (d : Desc) : List Nat → Except Error Val × List Nat
  | [] => (.error (.Io ioEofMsg), [])
  | pid :: rest =>
    if pid = d.id then
      match d.size, d.extId with
      | some n, _ => fromReader d.sh rest n
      | none, none =>
        if 2 ≤ rest.length then
          fromReader d.sh (rest.drop 2) (beVal (rest.take 2) - 1 - 2)
        else (.error (.Io ioEofMsg), rest)
      | none, some e =>
        if 2 ≤ rest.length then
          let sz := beVal (rest.take 2) - 1 - 2
          let r2 := rest.drop 2
          if 2 ≤ r2.length then
            if beVal (r2.take 2) = e then
              fromReader d.sh (r2.drop 2) (sz - 2)
            else
              (.error (.Data ("packet extended id did not match expected")),
                r2.drop 2)
          else (.error (.Io ioEofMsg), r2)
        else (.error (.Io ioEofMsg), rest)
    else (.error (.Data ("packet id did not match expected")), rest)

end UOverse

namespace UOverse

/-! ## The per-phase framing decoder

From `define_codec` in `src/uoverse-server/macros/src/lib.rs`: the codec's
`Decoder::decode` peeks the receive buffer, resolves the first whitelist
entry whose `(PACKET_ID, EXTENDED_ID)` matches, checks readiness, and only
then hands the buffer to `from_packet_data`. -/

/-- Uppercase hex digit. -/
def hexDigitChar (n : Nat) : Char :=
  if n < 10 then Char.ofNat (48 + n) else Char.ofNat (55 + n)

/-- Uppercase hex digits of `n`, most significant first (no leading
zeros; `0` renders as "0"), as Rust's `{:X}`. -/
def hexCore (n : Nat) : List Char :=
  if n < 16 then [hexDigitChar n]
  else hexCore (n / 16) ++ [hexDigitChar (n % 16)]
termination_by n
decreasing_by exact Nat.div_lt_self (by omega) (by omega)

/-- Rust's "{:#0X}" formatting used by the codec's error message. -/
def hexU (n : Nat) : String :=
  "0x" ++ String.mk (hexCore n)

/-- The `Data` message for a packet id missing from the phase whitelist
("Unexpected packet ID: {:#0X}" or "{:#0X}({:#0X})"). -/
def unexpectedIdMsg (pid : Nat) (eid : Option Nat) : String :=
  "Unexpected packet ID: " ++
    (match eid with
     | some e => hexU pid ++ "(" ++ hexU e ++ ")"
     | none => hexU pid)

/-- `Decoder::decode` generated by `define_codec`, parameterized by the
phase's inbound whitelist (the `recv` descriptor list, in declaration
order — the generated `match` tries the arms in that order).

Steps, as in the macro: an empty buffer is not ready; a `0xBF` first byte
needs five buffered bytes to peek the extended id (bytes 3..5 big-endian),
otherwise not ready; an unmatched `(id, extended id)` pair is
`Data("Unexpected packet ID: …")`; a matched fixed packet is ready when
`SIZE <= remaining`, a matched variable packet when at least three bytes
are buffered and the wire size (bytes 1..3) is `<= remaining`; a ready
packet is decoded by `from_packet_data` over the buffer (consuming it),
a non-ready one leaves the buffer untouched and yields no frame.

Returns the frame (the matched descriptor and decoded body) or error,
plus the buffer contents afterwards. -/
def decoderDecode (wl : List Desc) (src : List Nat) :
    Except Error (Option (Desc × Val)) × List Nat :=
  match src with
  | [] => (.ok none, src)
  | pid :: _ =>
    match (if pid = 0xBF then
             (if src.length < 5 then none
              else some (some (beVal ((src.drop 3).take 2))))
           else some none : Option (Option Nat)) with
    | none => (.ok none, src)
    | some eid =>
      match wl.find? (fun d => d.id == pid && d.extId == eid) with
      | some d =>
        let ready : Bool :=
          match d.size with
          | some sz => decide (sz ≤ src.length)
          | none => decide (3 ≤ src.length) &&
              decide (beVal ((src.drop 1).take 2) ≤ src.length)
        if ready then
          match fromPacketData d src with
          | (.ok v, rest) => (.ok (some (d, v)), rest)
          | (.error e, rest) => (.error e, rest)
        else (.ok none, src)
      | none => (.error (.Data (unexpectedIdMsg pid eid)), src)

end UOverse

namespace UOverse

/-! ## The packet catalog

Shapes transcribed field-by-field from `src/ultimaonline-net/src/packets/*`
and `src/ultimaonline-net/src/types*.rs`.  Signed integer fields use the
`word` shape of their width (two's-complement bit pattern), byte arrays
use `fixedStr` (identical wire form), nested structs are nested `tup`s.

Size policies: descriptors written with the older attribute spelling
`fixed(id, size)` / `var(id)` carry their declared `SIZE` from src.  The
macro revision implementing the newer `standard(id …)` / `extended(id)`
spelling is not in src; for those, `Fixed` (no `var_size = true`) is
modelled from the spec's catalog table with `SIZE` equal to the body's
(constant) wire size, `var_size = true` and `extended` are `SIZE = None`
(`extended` with `EXTENDED_ID = Some id`, `PACKET_ID = 0xBF`). -/

/-- `Direction` (`types.rs`): u8 repr, 0..=7 and Running = 0x80. -/
def directionSh : Sh := .enum 1 [0, 1, 2, 3, 4, 5, 6, 7, 0x80]

/-- `Notoriety` (`types.rs`): u8 repr, 1..=7. -/
def notorietySh : Sh := .enum 1 [1, 2, 3, 4, 5, 6, 7]

/-- `CharIdentity` (`types.rs`): u8 repr, 2..=7. -/
def charIdentitySh : Sh := .enum 1 [2, 3, 4, 5, 6, 7]

/-- `Race` (`types.rs`): u8 repr, 1..=3. -/
def raceSh : Sh := .enum 1 [1, 2, 3]

/-- `MovementRaw` (`types/movement.rs`): u8 repr, 0..=7 and 0x80..=0x87. -/
def movementRawSh : Sh :=
  .enum 1 [0, 1, 2, 3, 4, 5, 6, 7,
    0x80, 0x81, 0x82, 0x83, 0x84, 0x85, 0x86, 0x87]

/-- `EntityFlags` (`packets/mobile.rs`): u8 repr bit names. -/
def entityFlagsSh : Sh :=
  .enum 1 [0x00, 0x01, 0x02, 0x04, 0x08, 0x10, 0x20, 0x40, 0x80]

/-- `LoginRejectionReason` (`packets/login.rs`): u8 repr — Invalid = 0,
InUse = 1, Blocked = 2, BadPass = 3, Idle = 254, BadComm = 255. -/
def loginRejectionReasonSh : Sh := .enum 1 [0, 1, 2, 3, 254, 255]

/-- `SkillType` (`packets/char_select.rs`): u8 repr, the 58 skills
Alchemy = 0 through Throwing = 57. -/
def skillTypeSh : Sh := .enum 1 (List.range 58)

/-- `Profession` (`packets/char_select.rs`): u8 repr, 1..=7. -/
def professionSh : Sh := .enum 1 [1, 2, 3, 4, 5, 6, 7]

/-- `QueryKind` (`packets/mobile.rs`): u8 repr, 4..=5. -/
def queryKindSh : Sh := .enum 1 [4, 5]

/-- `Ipv4Addr` in serde's non-human-readable form: the four octets. -/
def ipSh : Sh := .tup [.word 1, .word 1, .word 1, .word 1]

/-- `ClientVersion` (`packets/login.rs`). -/
def clientVersionSh : Sh := .tup [.word 4, .word 4, .word 4, .word 4]

/-- `ServerInfo` (`packets/login.rs`). -/
def serverInfoSh : Sh :=
  .tup [.word 2, .fixedStr 32, .word 1, .word 1, ipSh]

/-- `CharInfo` (`packets/char_select.rs`). -/
def charInfoSh : Sh := .tup [.fixedStr 30, .fixedStr 30]

/-- `MapLocation` (`packets/char_select.rs`). -/
def mapLocationSh : Sh := .tup [.word 4, .word 4, .word 4, .word 4]

/-- `CityInfo` (`packets/char_select.rs`). -/
def cityInfoSh : Sh :=
  .tup [.word 1, .fixedStr 32, .fixedStr 32, mapLocationSh, .word 4, .word 4]

/-- `SkillChoice` (`packets/char_select.rs`). -/
def skillChoiceSh : Sh := .tup [skillTypeSh, .word 1]

/-- `CharAppearance` (`packets/char_select.rs`). -/
def charAppearanceSh : Sh :=
  .tup [.word 2, .word 2, .word 2, .word 2, .word 2]

/-- `Character` (`packets/char_select.rs`). -/
def characterSh : Sh :=
  .tup [professionSh, .fixedStr 15, charIdentitySh, .word 1, .word 1, .word 1,
    .tup [skillChoiceSh, skillChoiceSh, skillChoiceSh, skillChoiceSh],
    charAppearanceSh]

/-- `Attribute` (`packets/char_login.rs`). -/
def attributeSh : Sh := .tup [.word 2, .word 2]

/-- `mobile::State` body (`packets/mobile.rs`), also nested inside
`mobile::Appearance`. -/
def mobileStateSh : Sh :=
  .tup [.word 4, .word 2, .word 2, .word 2, .word 1, directionSh, .word 2,
    entityFlagsSh, notorietySh]

/-- `mobile::Item` (`packets/mobile.rs`). -/
def itemSh : Sh := .tup [.word 4, .word 2, .word 1, .word 2]

/-- `ClientHello`, `standard(id = 0xEF)` (`packets/login.rs`). -/
def clientHelloDesc : Desc :=
  ⟨"ClientHello", 0xEF, none, some 20, .tup [.word 4, clientVersionSh]⟩

/-- `AccountLogin`, `standard(id = 0x80)` (`packets/login.rs`). -/
def accountLoginDesc : Desc :=
  ⟨"AccountLogin", 0x80, none, some 61,
    .tup [.fixedStr 30, .fixedStr 30, .word 1]⟩

/-- `LoginRejection`, `standard(id = 0x82)` (`packets/login.rs`). -/
def loginRejectionDesc : Desc :=
  ⟨"LoginRejection", 0x82, none, some 1, .tup [loginRejectionReasonSh]⟩

/-- `ServerList`, `standard(id = 0xA8, var_size = true)`
(`packets/login.rs`); the server list is `List<ServerInfo, u16>`. -/
def serverListDesc : Desc :=
  ⟨"ServerList", 0xA8, none, none,
    .tup [.word 1, .listPref 2 serverInfoSh]⟩

/-- `ServerSelection`, `standard(id = 0xA0)` (`packets/login.rs`). -/
def serverSelectionDesc : Desc :=
  ⟨"ServerSelection", 0xA0, none, some 2, .tup [.word 2]⟩

/-- `GameServerHandoff`, `standard(id = 0x8C)` (`packets/login.rs`);
`SocketAddrV4` serializes as the ip octets then the port. -/
def gameServerHandoffDesc : Desc :=
  ⟨"GameServerHandoff", 0x8C, none, some 10,
    .tup [.tup [ipSh, .word 2], .word 4]⟩

/-- `GameLogin`, `standard(id = 0x91)` (`packets/char_select.rs`). -/
def gameLoginDesc : Desc :=
  ⟨"GameLogin", 0x91, none, some 64,
    .tup [.word 4, .fixedStr 30, .fixedStr 30]⟩

/-- `Features`, `standard(id = 0xB9)` (`packets/char_select.rs`). -/
def featuresDesc : Desc :=
  ⟨"Features", 0xB9, none, some 4, .tup [.word 4]⟩

/-- `CharList`, `standard(id = 0xA9, var_size = true)`
(`packets/char_select.rs`); both lists are the legacy 8-bit-count
`List<T, 8>` of `types.rs`, whose in-bounds wire format is a one-byte
big-endian count then the elements. -/
def charListDesc : Desc :=
  ⟨"CharList", 0xA9, none, none,
    .tup [.listPref 1 charInfoSh, .listPref 1 cityInfoSh, .word 4, .word 4]⟩

/-- `VersionReq`, `standard(id = 0xBD)` (`packets/char_select.rs`). -/
def versionReqDesc : Desc :=
  ⟨"VersionReq", 0xBD, none, some 2, .tup [.word 2]⟩

/-- `VersionResp`, `standard(id = 0xBD, var_size = true)`
(`packets/char_select.rs`): a single NUL-terminated `String`. -/
def versionRespDesc : Desc :=
  ⟨"VersionResp", 0xBD, none, none, .tup [.cstr]⟩

/-- `CreateCharacter`, `standard(id = 0xF8)` (`packets/char_select.rs`). -/
def createCharacterDesc : Desc :=
  ⟨"CreateCharacter", 0xF8, none, some 105,
    .tup [.word 4, .word 2, .word 2, .word 1, .fixedStr 30, .word 2, .word 4,
      .word 4, .word 4, characterSh, .word 2, .word 2, .word 2, .word 4,
      .word 2, .word 2]⟩

/-- `LoginConfirmation`, `fixed(id = 0x1B, size = 36)`
(`packets/char_login.rs`). -/
def loginConfirmationDesc : Desc :=
  ⟨"LoginConfirmation", 0x1B, none, some 36,
    .tup [.word 4, .word 4, .word 2, .word 2, .word 2, .word 2, directionSh,
      .word 1, .word 4, .fixedStr 14]⟩

/-- `LoginComplete`, `fixed(id = 0x55, size = 0)`
(`packets/char_login.rs`): a unit struct, empty body. -/
def loginCompleteDesc : Desc :=
  ⟨"LoginComplete", 0x55, none, some 0, .tup []⟩

/-- `CharStatus`, `var(id = 0x11)` (`packets/char_login.rs`). -/
def charStatusDesc : Desc :=
  ⟨"CharStatus", 0x11, none, none,
    .tup [.word 4, .fixedStr 30, attributeSh, .boolSh, .word 1, .boolSh,
      .word 2, .word 2, .word 2, attributeSh, attributeSh, .word 4, .word 2,
      attributeSh, raceSh, .word 2, .word 1, .word 1, .word 2, .word 2,
      .word 2, .word 2, .word 2, .word 2, .word 2, .word 4,
      .tup (List.replicate 15 (.word 2))]⟩

/-- `MobLightLevel`, `standard(id = 0x4E)` (`packets/mobile.rs`). -/
def mobLightLevelDesc : Desc :=
  ⟨"MobLightLevel", 0x4E, none, some 5, .tup [.word 4, .word 1]⟩

/-- `mobile::State`, `standard(id = 0x77)` (`packets/mobile.rs`). -/
def mobileStateDesc : Desc :=
  ⟨"State", 0x77, none, some 16, mobileStateSh⟩

/-- `mobile::Appearance`, `standard(id = 0x78, var_size = true)`
(`packets/mobile.rs`): the state body then `ListTerm<Item, u32>`. -/
def appearanceDesc : Desc :=
  ⟨"Appearance", 0x78, none, none,
    .tup [mobileStateSh, .listTerm 4 itemSh]⟩

/-- `mobile::Query`, `standard(id = 0x34)` (`packets/mobile.rs`). -/
def mobileQueryDesc : Desc :=
  ⟨"Query", 0x34, none, some 9, .tup [.word 4, queryKindSh, .word 4]⟩

/-- `movement::Request`, `fixed(id = 0x02, size = 6)`
(`packets/movement.rs`). -/
def movementRequestDesc : Desc :=
  ⟨"Request", 0x02, none, some 6, .tup [movementRawSh, .word 1, .word 4]⟩

/-- `movement::Success`, `fixed(id = 0x22, size = 2)`
(`packets/movement.rs`). -/
def movementSuccessDesc : Desc :=
  ⟨"Success", 0x22, none, some 2, .tup [.word 1, notorietySh]⟩

/-- `movement::Reject`, `fixed(id = 0x21, size = 7)`
(`packets/movement.rs`). -/
def movementRejectDesc : Desc :=
  ⟨"Reject", 0x21, none, some 7,
    .tup [.word 1, .word 2, .word 2, movementRawSh, .word 1]⟩

/-- `WorldLightLevel`, `fixed(id = 0x4F, size = 1)` (`packets/world.rs`). -/
def worldLightLevelDesc : Desc :=
  ⟨"WorldLightLevel", 0x4F, none, some 1, .tup [.word 1]⟩

/-- `PingReq`, `fixed(id = 0x73, size = 1)` (`packets/network.rs`). -/
def pingReqDesc : Desc :=
  ⟨"PingReq", 0x73, none, some 1, .tup [.word 1]⟩

/-- `PingAck`, `fixed(id = 0x73, size = 1)` (`packets/network.rs`). -/
def pingAckDesc : Desc :=
  ⟨"PingAck", 0x73, none, some 1, .tup [.word 1]⟩

/-- `ClickUse`, `fixed(id = 0x06, size = 4)` (`packets/action.rs`). -/
def clickUseDesc : Desc :=
  ⟨"ClickUse", 0x06, none, some 4, .tup [.word 4]⟩

/-- `ClickLook`, `fixed(id = 0x09, size = 4)` (`packets/action.rs`). -/
def clickLookDesc : Desc :=
  ⟨"ClickLook", 0x09, none, some 4, .tup [.word 4]⟩

/-- `WindowSize`, `extended(id = 0x05)` (`packets/client_info.rs`). -/
def windowSizeDesc : Desc :=
  ⟨"WindowSize", 0xBF, some 0x05, none, .tup [.word 4, .word 4]⟩

/-- `Language`, `extended(id = 0x0B)` (`packets/client_info.rs`). -/
def languageDesc : Desc :=
  ⟨"Language", 0xBF, some 0x0B, none, .tup [.fixedStr 4]⟩

/-- `client_info::Flags`, `extended(id = 0x0F)`
(`packets/client_info.rs`). -/
def clientFlagsDesc : Desc :=
  ⟨"Flags", 0xBF, some 0x0F, none, .tup [.word 1, .word 4]⟩

/-- `ViewRange`, `standard(id = 0xC8)` (`packets/client_info.rs`). -/
def viewRangeDesc : Desc :=
  ⟨"ViewRange", 0xC8, none, some 1, .tup [.word 1]⟩

/-- `MapChange`, `standard(id = 0xBF, var_size = true)`
(`packets/map.rs`): an extended-style packet written as a plain
variable-size packet with primary id 0xBF and the extended id as its
first body field. -/
def mapChangeDesc : Desc :=
  ⟨"MapChange", 0xBF, none, none, .tup [.word 2, .word 1]⟩

/-- `CloseStatus`, `extended(id = 0x0C)` (`packets/gump.rs`). -/
def closeStatusDesc : Desc :=
  ⟨"CloseStatus", 0xBF, some 0x0C, none, .tup [.word 4]⟩

/-- `EntityBatchQuery`, `var(id = 0xD6)` (`packets/entity.rs`):
`ListNonTerm<Serial>`. -/
def entityBatchQueryDesc : Desc :=
  ⟨"EntityBatchQuery", 0xD6, none, none, .tup [.listNonTerm (.word 4)]⟩

/-- The packet catalog: every packet type declared in
`src/ultimaonline-net/src/packets/*`. -/
def catalog : List Desc :=
  [clientHelloDesc, accountLoginDesc, loginRejectionDesc, serverListDesc,
   serverSelectionDesc, gameServerHandoffDesc, gameLoginDesc, featuresDesc,
   charListDesc, versionReqDesc, versionRespDesc, createCharacterDesc,
   loginConfirmationDesc, loginCompleteDesc, charStatusDesc,
   mobLightLevelDesc, mobileStateDesc, appearanceDesc, mobileQueryDesc,
   movementRequestDesc, movementSuccessDesc, movementRejectDesc,
   worldLightLevelDesc, pingReqDesc, pingAckDesc, clickUseDesc,
   clickLookDesc, windowSizeDesc, languageDesc, clientFlagsDesc,
   viewRangeDesc, mapChangeDesc, closeStatusDesc, entityBatchQueryDesc]

/-- The packet types declared with the older explicit
`fixed(id, size = n)` attribute in src (authoritative `SIZE` constants). -/
def fixedSrcCatalog : List Desc :=
  [loginConfirmationDesc, loginCompleteDesc, movementRequestDesc,
   movementSuccessDesc, movementRejectDesc, worldLightLevelDesc,
   pingReqDesc, pingAckDesc, clickUseDesc, clickLookDesc]

end UOverse

namespace UOverse

/-! ## Embedding validation against the serializer tests in src

These reproduce the byte-exact unit tests of
`src/ultimaonline-net/src/packets/*` (`mod tests`) inside the model. -/

/-- `login_complete::serialize`: `LoginComplete` encodes to its id byte. -/
theorem loginComplete_serialize_test :
    encodePacket loginCompleteDesc (.tup []) = .ok [0x55] := rfl

/-- `window_size::serialize` (`packets/client_info.rs`). -/
theorem windowSize_serialize_test :
    encodePacket windowSizeDesc (.tup [.word 4 3295189, .word 4 882067423]) =
      .ok [0xBF, 0x00, 0x0D, 0x00, 0x05, 0x00, 0x32, 0x47, 0xD5, 0x34, 0x93,
        0x47, 0xDF] := rfl

/-- `language::serialize` (`packets/client_info.rs`): `"ENU"` as
`FixedStr<4>` is `ENU` plus a zero pad byte. -/
theorem language_serialize_test :
    encodePacket languageDesc (.tup [.fixedStr [0x45, 0x4E, 0x55, 0x00]]) =
      .ok [0xBF, 0x00, 0x09, 0x00, 0x0B, 0x45, 0x4E, 0x55, 0x00] := rfl

/-- `entity_batch_query::serialize` (`packets/entity.rs`). -/
theorem entityBatchQuery_serialize_test :
    encodePacket entityBatchQueryDesc
      (.tup [.listNonTerm [.word 4 0x40000032]]) =
      .ok [0xD6, 0x00, 0x07, 0x40, 0x00, 0x00, 0x32] := rfl

/-- `login_complete::deserialize` (`packets/char_login.rs`). -/
theorem loginComplete_deserialize_test :
    fromPacketData loginCompleteDesc [0x55] = (.ok (.tup []), []) := by
  simp [fromPacketData, loginCompleteDesc, fromReader, deserializeSh,
    deserializeFields]

/-- `login_rejection::deserialize` (`packets/login.rs`): confirms the
`standard(id)` spelling carries no wire size field. -/
theorem loginRejection_deserialize_test :
    fromPacketData loginRejectionDesc [0x82, 2] =
      (.ok (.tup [.enum 1 2]), []) := by
  simp [fromPacketData, loginRejectionDesc, loginRejectionReasonSh,
    fromReader, deserializeSh, deserializeFields, readBE, beVal]

/-- Scenario B of the spec (`82 03`): `LoginRejection(BadPass = 3)`
decodes, `BadPass` being a declared discriminant of
`LoginRejectionReason` (`packets/login.rs`). -/
theorem loginRejection_badpass_test :
    fromPacketData loginRejectionDesc [0x82, 3] =
      (.ok (.tup [.enum 1 3]), []) := by
  simp [fromPacketData, loginRejectionDesc, loginRejectionReasonSh,
    fromReader, deserializeSh, deserializeFields, readBE, beVal]

/-- `window_size::deserialize` (`packets/client_info.rs`). -/
theorem windowSize_deserialize_test :
    fromPacketData windowSizeDesc
      [0xBF, 0x00, 0x0D, 0x00, 0x05, 0x14, 0x9B, 0x68, 0x21, 0xE3, 0xBD,
        0x0B, 0xCE] =
      (.ok (.tup [.word 4 345729057, .word 4 3820817358]), []) := by
  simp [fromPacketData, windowSizeDesc, fromReader, deserializeSh,
    deserializeFields, readBE, beVal]

/-- `entity_batch_query::deserialize` (`packets/entity.rs`). -/
theorem entityBatchQuery_deserialize_test :
    fromPacketData entityBatchQueryDesc
      [0xD6, 0x00, 0x0B, 0x40, 0x00, 0x00, 0x96, 0x40, 0x00, 0x05, 0x44] =
      (.ok (.tup [.listNonTerm [.word 4 0x40000096, .word 4 0x40000544]]),
        []) := by
  simp [fromPacketData, entityBatchQueryDesc, fromReader, deserializeSh,
    deserializeFields, deserializeNonTermList, readBE, beVal]

end UOverse

namespace UOverse

/-- The `appearance()` fixture of `packets/mobile.rs` (`mod tests`). -/
def appearanceFixture : Val :=
  .tup [.tup [.word 4 0x12345678, .word 2 0xBEEF, .word 2 0xABCD,
      .word 2 0xACAB, .word 1 0x7F, .enum 1 0, .word 2 0xDEAD, .enum 1 0x80,
      .enum 1 1],
    .listTerm 4 [
      .tup [.word 4 0x40000001, .word 2 0x1A1A, .word 1 0x1B, .word 2 0x1C1C],
      .tup [.word 4 0x40000002, .word 2 0x2A2A, .word 1 0x2B, .word 2 0x2C2C],
      .tup [.word 4 0x40000003, .word 2 0x3A3A, .word 1 0x3B, .word 2 0x3C3C],
      .tup [.word 4 0x40000004, .word 2 0x4A4A, .word 1 0x4B, .word 2 0x4C4C],
      .tup [.word 4 0x40000005, .word 2 0x5A5A, .word 1 0x5B, .word 2 0x5C5C],
      .tup [.word 4 0x40000006, .word 2 0x6A6A, .word 1 0x6B, .word 2 0x6C6C],
      .tup [.word 4 0x40000007, .word 2 0x7A7A, .word 1 0x7B, .word 2 0x7C7C],
      .tup [.word 4 0x40000008, .word 2 0x8A8A, .word 1 0x8B,
        .word 2 0x8C8C]]]

/-- The expected `Appearance` packet bytes of `packets/mobile.rs`
(`mod tests`, both directions use the same vector). -/
def appearanceTestBytes : List Nat :=
  [0x78, 0x00, 0x5F, 0x12, 0x34, 0x56, 0x78, 0xBE, 0xEF, 0xAB, 0xCD, 0xAC,
   0xAB, 0x7F, 0x00, 0xDE, 0xAD, 0x80, 0x01, 0x40, 0x00, 0x00, 0x01, 0x1A,
   0x1A, 0x1B, 0x1C, 0x1C, 0x40, 0x00, 0x00, 0x02, 0x2A, 0x2A, 0x2B, 0x2C,
   0x2C, 0x40, 0x00, 0x00, 0x03, 0x3A, 0x3A, 0x3B, 0x3C, 0x3C, 0x40, 0x00,
   0x00, 0x04, 0x4A, 0x4A, 0x4B, 0x4C, 0x4C, 0x40, 0x00, 0x00, 0x05, 0x5A,
   0x5A, 0x5B, 0x5C, 0x5C, 0x40, 0x00, 0x00, 0x06, 0x6A, 0x6A, 0x6B, 0x6C,
   0x6C, 0x40, 0x00, 0x00, 0x07, 0x7A, 0x7A, 0x7B, 0x7C, 0x7C, 0x40, 0x00,
   0x00, 0x08, 0x8A, 0x8A, 0x8B, 0x8C, 0x8C, 0x00, 0x00, 0x00, 0x00]

/-- `appearance::serialize` (`packets/mobile.rs`): the `ListTerm` body
(elements then a u32 zero terminator) under the variable-size envelope. -/
theorem appearance_serialize_test :
    encodePacket appearanceDesc appearanceFixture = .ok appearanceTestBytes :=
  rfl

/-- `appearance::deserialize` (`packets/mobile.rs`): the terminator loop
peeks each element's leading serial and stops on the four zero bytes. -/
theorem appearance_deserialize_test :
    fromPacketData appearanceDesc appearanceTestBytes =
      (.ok appearanceFixture, []) := by
  simp [fromPacketData, appearanceDesc, appearanceTestBytes,
    appearanceFixture, mobileStateSh, itemSh, directionSh, entityFlagsSh,
    notorietySh, fromReader, deserializeSh, deserializeFields,
    deserializeTermList, peekBE, readBE, beVal]

end UOverse

namespace UOverse

/-! ## Reader primitive lemmas -/

theorem readBE_ok {w : Nat} {s s1 : DeState} {v : Nat}
    (h : readBE w s = (.ok v, s1)) :
    w ≤ s.stream.length ∧ w ≤ s.remaining ∧ v = beVal (s.stream.take w) ∧
      s1 = ⟨s.stream.drop w, s.remaining - w⟩ := by
  unfold readBE at h
  split at h
  case isTrue hl =>
    split at h
    case isTrue hr =>
      rw [Prod.mk.injEq] at h
      obtain ⟨h1, h2⟩ := h
      cases h1
      exact ⟨hl, hr, rfl, h2.symm⟩
    case isFalse => simp at h
  case isFalse => simp at h

theorem readBE_of_le {w : Nat} {s : DeState} (hl : w ≤ s.stream.length)
    (hr : w ≤ s.remaining) :
    readBE w s =
      (.ok (beVal (s.stream.take w)), ⟨s.stream.drop w, s.remaining - w⟩) := by
  unfold readBE
  rw [if_pos hl, if_pos hr]

end UOverse

namespace UOverse

theorem peekBE_of_le {w : Nat} {s : DeState} (hl : w ≤ s.stream.length) :
    peekBE w s = .ok (beVal (s.stream.take w)) := by
  unfold peekBE
  rw [if_pos hl]

theorem splitNul_append {s rest : List Nat} (h : ∀ b ∈ s, b ≠ 0) :
    splitNul (s ++ 0 :: rest) = some (s, rest) := by
  induction s with
  | nil => simp [splitNul]
  | cons b s ih =>
    have hb : b ≠ 0 := h b (List.mem_cons_self b s)
    have hs : ∀ x ∈ s, x ≠ 0 := fun x hx => h x (List.mem_cons_of_mem b hx)
    simp [splitNul, hb, ih hs]

theorem deserializeBytes_append {bs rest : List Nat} {k : Nat} :
    deserializeBytes bs.length ⟨bs ++ rest, bs.length + k⟩ =
      (.ok bs, ⟨rest, k⟩) := by
  induction bs generalizing k with
  | nil => simp [deserializeBytes]
  | cons b bs ih =>
    have harith : bs.length + 1 + k - 1 = bs.length + k := by omega
    have hr : readBE 1 ⟨b :: (bs ++ rest), bs.length + 1 + k⟩ =
        (.ok b, ⟨bs ++ rest, bs.length + k⟩) := by
      have hc1 : 1 ≤ (b :: (bs ++ rest)).length := by simp
      have hc2 : 1 ≤ bs.length + 1 + k := by omega
      unfold readBE
      rw [if_pos hc1, if_pos hc2]
      simp [beVal, harith]
    show deserializeBytes (bs.length + 1) ⟨b :: (bs ++ rest), bs.length + 1 + k⟩ =
      (.ok (b :: bs), ⟨rest, k⟩)
    rw [deserializeBytes, hr]
    simp [ih]

/-! ## Serializer structure lemmas -/

theorem serializeList_cons_ok {v : Val} {vs : List Val} {bs : List Nat}
    (h : serializeList (v :: vs) = .ok bs) :
    ∃ b rest, serializeVal v = .ok b ∧ serializeList vs = .ok rest ∧
      bs = b ++ rest := by
  unfold serializeList at h
  cases hv : serializeVal v with
  | ok b =>
    rw [hv] at h
    cases hvs : serializeList vs with
    | ok r =>
      rw [hvs] at h
      simp at h
      exact ⟨b, r, rfl, rfl, h.symm⟩
    | error e => rw [hvs] at h; simp at h
  | error e => rw [hv] at h; simp at h

theorem serializeList_nil : serializeList [] = .ok [] := rfl

end UOverse

namespace UOverse

/-! ## Shape classification for the byte-budget discipline

`ListNonTerm` derives its element count from the containing packet's
remaining budget (`deserialize_seq` stops at `remaining == 0`), so it can
only sit where the budget runs out exactly at its end — the spec's design
note: "a `ListNonTerm<T>` is only legal as the last field of its
containing packet".  `noLNT` marks shapes with no `ListNonTerm` at all;
`lntLast` marks shapes where every `ListNonTerm` occurs in tail position
of the enclosing budget.  Every catalog shape satisfies `lntLast`. -/

mutual

/-- No `ListNonTerm` anywhere in the shape. -/
def noLNT : Sh → Bool
  | .tup shs => noLNTF shs
  | .listPref _ el => noLNT el
  | .listTerm _ el => noLNT el
  | .listNonTerm _ => false
  | _ => true

/-- No `ListNonTerm` in any of the fields. -/
def noLNTF : List Sh → Bool
  | [] => true
  | sh :: rest => noLNT sh && noLNTF rest

end

mutual

/-- `ListNonTerm` only in budget-tail position. -/
def lntLast : Sh → Bool
  | .tup shs => lntLastF shs
  | .listPref _ el => noLNT el
  | .listTerm _ el => noLNT el
  | .listNonTerm el => noLNT el
  | _ => true

/-- `ListNonTerm` only in the last field (recursively). -/
def lntLastF : List Sh → Bool
  | [] => true
  | [sh] => lntLast sh
  | sh :: rest => noLNT sh && lntLastF rest

end

mutual

/-- Structural weight of a value (induction measure for round-trips). -/
def valW : Val → Nat
  | .word _ _ => 1
  | .bool _ => 1
  | .fixedStr _ => 1
  | .cstr _ => 1
  | .enum _ _ => 1
  | .tup vs => 1 + valWL vs
  | .listPref _ es => 1 + valWL es
  | .listTerm _ es => 1 + valWL es
  | .listNonTerm es => 1 + valWL es

/-- Structural weight of a value list. -/
def valWL : List Val → Nat
  | [] => 1
  | v :: vs => 1 + valW v + valWL vs

end

theorem valW_pos (v : Val) : 1 ≤ valW v := by
  cases v <;> simp [valW]

theorem valWL_pos (vs : List Val) : 1 ≤ valWL vs := by
  cases vs
  · simp [valWL]
  · simp [valWL]; omega

theorem valW_le_of_mem {v : Val} {vs : List Val} (h : v ∈ vs) :
    valW v + 2 ≤ valWL vs := by
  induction vs with
  | nil => cases h
  | cons x xs ih =>
    rcases List.mem_cons.mp h with h1 | h2
    · rw [valWL, ← h1]
      have := valWL_pos xs
      omega
    · have := ih h2
      have := valW_pos x
      rw [valWL]
      omega

theorem wfAll_mem {el : Sh} {vs : List Val} (h : wfAll el vs = true) :
    ∀ v ∈ vs, wfVal el v = true := by
  induction vs with
  | nil => intro v hv; cases hv
  | cons w ws ih =>
    rw [wfAll, Bool.and_eq_true] at h
    intro v hv
    rcases List.mem_cons.mp hv with rfl | h2
    · exact h.1
    · exact ih h.2 v h2

end UOverse

namespace UOverse

/-- Repack a decoder state after peeling one element's bytes off the
front: list append and budget addition reassociate. -/
theorem state_assoc (b r rest : List Nat) (k : Nat) :
    (⟨(b ++ r) ++ rest, (b ++ r).length + k⟩ : DeState) =
      ⟨b ++ (r ++ rest), b.length + (r.length + k)⟩ := by
  simp [List.append_assoc, Nat.add_assoc]

/-- Round-trip for the count-driven element loop: decoding `vs.length`
elements off their own concatenated encodings yields `vs`, consuming
exactly those bytes and charging exactly their length. -/
theorem deserializeCount_rt {el : Sh} :
    ∀ (vs : List Val) (bs rest : List Nat) (k : Nat),
      (∀ v ∈ vs, ∀ (b r : List Nat) (kk : Nat), serializeVal v = .ok b →
        deserializeSh el ⟨b ++ r, b.length + kk⟩ = (.ok v, ⟨r, kk⟩)) →
      serializeList vs = .ok bs →
      deserializeCount el vs.length ⟨bs ++ rest, bs.length + k⟩ =
        (.ok vs, ⟨rest, k⟩)
  | [], bs, rest, k, _, hser => by
    rw [serializeList_nil] at hser
    cases hser
    simp [deserializeCount]
  | v :: vs, bs, rest, k, hel, hser => by
    obtain ⟨b, r, hv, hvs, rfl⟩ := serializeList_cons_ok hser
    have h1 := hel v (List.mem_cons_self v vs) b (r ++ rest) (r.length + k) hv
    have h2 := deserializeCount_rt vs r rest k
      (fun w hw => hel w (List.mem_cons_of_mem v hw)) hvs
    show deserializeCount el (vs.length + 1) ⟨(b ++ r) ++ rest, (b ++ r).length + k⟩ =
      (.ok (v :: vs), ⟨rest, k⟩)
    rw [state_assoc]
    simp only [deserializeCount, h1, h2]

end UOverse

namespace UOverse

/-- Unpack `termElemOK`: the element's encoding, its minimum length, and
its non-zero leading terminator-sized value. -/
theorem termElemOK_spec {tw : Nat} {v : Val} {b : List Nat}
    (hok : termElemOK tw v = true) (hser : serializeVal v = .ok b) :
    tw ≤ b.length ∧ beVal (b.take tw) ≠ 0 := by
  unfold termElemOK at hok
  rw [hser] at hok
  rw [Bool.and_eq_true, decide_eq_true_eq, decide_eq_true_eq] at hok
  exact hok

/-- Round-trip for the terminator-driven element loop: given the
concatenated element encodings followed by the `tw`-byte zero terminator,
the loop peeks each element's non-zero lead, decodes exactly the
elements, then consumes and charges the terminator — `bs.length + tw`
bytes and budget in total, with the peeks charging nothing. -/
theorem deserializeTermList_rt {el : Sh} {tw : Nat} :
    ∀ (vs : List Val) (bs rest : List Nat) (k fuel : Nat),
      0 < tw →
      (∀ v ∈ vs, ∀ (b r : List Nat) (kk : Nat), serializeVal v = .ok b →
        deserializeSh el ⟨b ++ r, b.length + kk⟩ = (.ok v, ⟨r, kk⟩)) →
      (∀ v ∈ vs, termElemOK tw v = true) →
      serializeList vs = .ok bs →
      bs.length + tw + rest.length < fuel →
      deserializeTermList el tw fuel
        ⟨bs ++ (List.replicate tw 0 ++ rest), bs.length + tw + k⟩ =
        (.ok vs, ⟨rest, k⟩)
  | [], bs, rest, k, fuel, htw, _, _, hser, hfuel => by
    rw [serializeList_nil] at hser
    cases hser
    obtain ⟨f, rfl⟩ : ∃ f, fuel = f + 1 := by
      cases fuel
      · omega
      · exact ⟨_, rfl⟩
    show deserializeTermList el tw (f + 1)
        ⟨[] ++ (List.replicate tw 0 ++ rest), [].length + tw + k⟩ =
      (.ok [], ⟨rest, k⟩)
    simp only [List.nil_append, List.length_nil, Nat.zero_add]
    have hpeek : peekBE tw ⟨List.replicate tw 0 ++ rest, tw + k⟩ = .ok 0 := by
      rw [peekBE_of_le (by simp)]
      rw [show (⟨List.replicate tw 0 ++ rest, tw + k⟩ : DeState).stream =
        List.replicate tw 0 ++ rest from rfl]
      rw [List.take_left' (by simp : (List.replicate tw 0).length = tw),
        beVal_replicate_zero]
    rw [deserializeTermList, hpeek]
    simp [List.drop_left' (by simp : (List.replicate tw 0).length = tw),
      Nat.le_add_right, Nat.add_sub_cancel_left]
  | v :: vs, bs, rest, k, fuel, htw, hel, hterm, hser, hfuel => by
    obtain ⟨b, r, hv, hvs, rfl⟩ := serializeList_cons_ok hser
    obtain ⟨f, rfl⟩ : ∃ f, fuel = f + 1 := by
      cases fuel
      · omega
      · exact ⟨_, rfl⟩
    obtain ⟨hbl, hbv⟩ := termElemOK_spec (hterm v (List.mem_cons_self v vs)) hv
    have hstate : (⟨(b ++ r) ++ (List.replicate tw 0 ++ rest),
        (b ++ r).length + tw + k⟩ : DeState) =
        ⟨b ++ (r ++ (List.replicate tw 0 ++ rest)),
          b.length + (r.length + tw + k)⟩ := by
      simp [List.append_assoc]
      omega
    have hpeek : peekBE tw ⟨(b ++ r) ++ (List.replicate tw 0 ++ rest),
        (b ++ r).length + tw + k⟩ = .ok (beVal (b.take tw)) := by
      rw [peekBE_of_le (by simp; omega)]
      congr 1
      rw [show (⟨(b ++ r) ++ (List.replicate tw 0 ++ rest),
        (b ++ r).length + tw + k⟩ : DeState).stream =
        (b ++ r) ++ (List.replicate tw 0 ++ rest) from rfl]
      rw [List.append_assoc, List.take_append_of_le_length hbl]
    have h1 : deserializeSh el ⟨(b ++ r) ++ (List.replicate tw 0 ++ rest),
        (b ++ r).length + tw + k⟩ =
        (.ok v, ⟨r ++ (List.replicate tw 0 ++ rest), r.length + tw + k⟩) := by
      rw [hstate]
      have := hel v (List.mem_cons_self v vs) b
        (r ++ (List.replicate tw 0 ++ rest)) (r.length + tw + k) hv
      rw [this]
    have h2 := deserializeTermList_rt vs r rest k f htw
      (fun w hw => hel w (List.mem_cons_of_mem v hw))
      (fun w hw => hterm w (List.mem_cons_of_mem v hw)) hvs
      (by simp at hfuel ⊢; omega)
    rw [deserializeTermList, hpeek]
    simp only [if_neg hbv, h1]
    split
    case isTrue => simp only [h2]
    case isFalse hcon =>
      exfalso
      apply hcon
      simp
      omega

end UOverse

namespace UOverse

/-- Unpack `encNonEmpty`. -/
theorem encNonEmpty_spec {v : Val} {b : List Nat}
    (hne : encNonEmpty v = true) (hser : serializeVal v = .ok b) :
    0 < b.length := by
  unfold encNonEmpty at hne
  rw [hser] at hne
  rwa [decide_eq_true_eq] at hne

/-- Round-trip for the budget-driven element loop of `ListNonTerm`: with
the budget equal to the concatenated element encodings, the loop decodes
exactly the elements and stops at `remaining == 0`, leaving any further
stream bytes unread. -/
theorem deserializeNonTermList_rt {el : Sh} :
    ∀ (vs : List Val) (bs rest : List Nat) (fuel : Nat),
      (∀ v ∈ vs, ∀ (b r : List Nat) (kk : Nat), serializeVal v = .ok b →
        deserializeSh el ⟨b ++ r, b.length + kk⟩ = (.ok v, ⟨r, kk⟩)) →
      (∀ v ∈ vs, encNonEmpty v = true) →
      serializeList vs = .ok bs →
      bs.length + rest.length < fuel →
      deserializeNonTermList el fuel ⟨bs ++ rest, bs.length⟩ =
        (.ok vs, ⟨rest, 0⟩)
  | [], bs, rest, fuel, _, _, hser, hfuel => by
    rw [serializeList_nil] at hser
    cases hser
    obtain ⟨f, rfl⟩ : ∃ f, fuel = f + 1 := by
      cases fuel
      · omega
      · exact ⟨_, rfl⟩
    simp [deserializeNonTermList]
  | v :: vs, bs, rest, fuel, hel, hne, hser, hfuel => by
    obtain ⟨b, r, hv, hvs, rfl⟩ := serializeList_cons_ok hser
    obtain ⟨f, rfl⟩ : ∃ f, fuel = f + 1 := by
      cases fuel
      · omega
      · exact ⟨_, rfl⟩
    have hb := encNonEmpty_spec (hne v (List.mem_cons_self v vs)) hv
    have h1 : deserializeSh el ⟨(b ++ r) ++ rest, (b ++ r).length⟩ =
        (.ok v, ⟨r ++ rest, r.length⟩) := by
      have := hel v (List.mem_cons_self v vs) b (r ++ rest) r.length hv
      rw [show (⟨(b ++ r) ++ rest, (b ++ r).length⟩ : DeState) =
        ⟨b ++ (r ++ rest), b.length + r.length⟩ by simp, this]
    have h2 := deserializeNonTermList_rt vs r rest f
      (fun w hw => hel w (List.mem_cons_of_mem v hw))
      (fun w hw => hne w (List.mem_cons_of_mem v hw)) hvs
      (by simp only [List.length_append] at hfuel ⊢; omega)
    have hnz : ¬(⟨(b ++ r) ++ rest, (b ++ r).length⟩ : DeState).remaining = 0 := by
      show ¬(b ++ r).length = 0
      simp only [List.length_append]
      omega
    rw [deserializeNonTermList]
    rw [if_neg hnz]
    simp only [h1]
    split
    case isTrue => simp only [h2]
    case isFalse hcon =>
      exfalso
      apply hcon
      simp
      omega

end UOverse

namespace UOverse

/-! ## Round-trip, shape by shape

`RTA sh v`: decoding the encoding of `v` (with any further bytes and any
surplus budget `k` behind it) returns `v`, consumes exactly the encoding
and charges exactly its length.  `RTB` is the surplus-free variant, the
right notion for shapes whose trailing field may be a `ListNonTerm`. -/

/-- Round-trip with arbitrary surplus budget. -/
def RTA (sh : Sh) (v : Val) : Prop :=
  ∀ (bs rest : List Nat) (k : Nat), serializeVal v = .ok bs →
    deserializeSh sh ⟨bs ++ rest, bs.length + k⟩ = (.ok v, ⟨rest, k⟩)

/-- Round-trip with the budget ending exactly at the encoding's end. -/
def RTB (sh : Sh) (v : Val) : Prop :=
  ∀ (bs rest : List Nat), serializeVal v = .ok bs →
    deserializeSh sh ⟨bs ++ rest, bs.length⟩ = (.ok v, ⟨rest, 0⟩)

/-- Field-list round-trip with arbitrary surplus budget. -/
def RTAF (shs : List Sh) (vs : List Val) : Prop :=
  ∀ (bs rest : List Nat) (k : Nat), serializeList vs = .ok bs →
    deserializeFields shs ⟨bs ++ rest, bs.length + k⟩ = (.ok vs, ⟨rest, k⟩)

/-- Field-list round-trip with exact budget. -/
def RTBF (shs : List Sh) (vs : List Val) : Prop :=
  ∀ (bs rest : List Nat), serializeList vs = .ok bs →
    deserializeFields shs ⟨bs ++ rest, bs.length⟩ = (.ok vs, ⟨rest, 0⟩)

theorem RTB_of_RTA {sh : Sh} {v : Val} (h : RTA sh v) : RTB sh v := by
  intro bs rest hser
  have := h bs rest 0 hser
  simpa using this

theorem readBE_append {w : Nat} {bs rest : List Nat} {k : Nat}
    (hlen : bs.length = w) :
    readBE w ⟨bs ++ rest, bs.length + k⟩ = (.ok (beVal bs), ⟨rest, k⟩) := by
  subst hlen
  rw [readBE_of_le (show bs.length ≤ (bs ++ rest).length by simp)
    (Nat.le_add_right _ _)]
  rw [show (⟨bs ++ rest, bs.length + k⟩ : DeState).stream = bs ++ rest from rfl,
    show (⟨bs ++ rest, bs.length + k⟩ : DeState).remaining = bs.length + k from rfl]
  rw [List.take_left, List.drop_left, Nat.add_sub_cancel_left]

theorem rtA_word {w x : Nat} (hx : x < 256 ^ w) :
    RTA (.word w) (.word w x) := by
  intro bs rest k hser
  rw [show serializeVal (Val.word w x) = .ok (beBytes w x) from rfl] at hser
  cases hser
  have hr := @readBE_append _ _ rest k (beBytes_length w x)
  rw [beVal_beBytes_of_lt hx] at hr
  simp only [deserializeSh, hr]

theorem rtA_bool (b : Bool) : RTA .boolSh (.bool b) := by
  intro bs rest k hser
  rw [show serializeVal (Val.bool b) = .ok [if b then 1 else 0] from rfl] at hser
  cases hser
  have hr := @readBE_append 1 [if b then 1 else 0] rest k (by simp)
  simp only [deserializeSh, hr]
  cases b <;> simp [beVal]

theorem rtA_fixedStr {n : Nat} {bytes : List Nat} (hlen : bytes.length = n)
    (hcap : n ≤ 65535) : RTA (.fixedStr n) (.fixedStr bytes) := by
  subst hlen
  intro bs rest k hser
  rw [show serializeVal (Val.fixedStr bytes) =
    (if bytes.length ≤ 65535 then .ok bytes
     else .error (.Serialization ("FixedStr must have a length <= u16::MAX")))
    from rfl, if_pos hcap] at hser
  cases hser
  have hd := @deserializeBytes_append bytes rest k
  simp only [deserializeSh, hd]

theorem rtA_cstr {s : List Nat} (h : ∀ x ∈ s, 0 < x ∧ x < 128) :
    RTA .cstr (.cstr s) := by
  intro bs rest k hser
  have hascii : s.all (fun b => b < 128) = true := by
    rw [List.all_eq_true]
    intro x hx
    exact decide_eq_true (h x hx).2
  rw [show serializeVal (Val.cstr s) =
    (if s.all (fun b => b < 128) then .ok (s ++ [0])
     else .error (.Data ("non-ASCII string"))) from rfl, if_pos hascii] at hser
  cases hser
  have hsplit : splitNul ((s ++ [0]) ++ rest) = some (s, rest) := by
    rw [List.append_assoc]
    exact splitNul_append (fun b hb => Nat.pos_iff_ne_zero.mp (h b hb).1)
  simp only [deserializeSh, hsplit]
  rw [if_pos (by simp)]
  rw [if_pos hascii]
  congr 1
  simp

theorem rtA_enum {w x : Nat} {valid : List Nat} (hx : x < 256 ^ w)
    (hc : valid.contains x = true) : RTA (.enum w valid) (.enum w x) := by
  intro bs rest k hser
  rw [show serializeVal (Val.enum w x) = .ok (beBytes w x) from rfl] at hser
  cases hser
  have hr := @readBE_append _ _ rest k (beBytes_length w x)
  rw [beVal_beBytes_of_lt hx] at hr
  simp only [deserializeSh, hr]
  rw [if_pos hc]

end UOverse

namespace UOverse

theorem mkDeState_congr {a b : List Nat} {m n : Nat} (hs : a = b)
    (hr : m = n) : (⟨a, m⟩ : DeState) = ⟨b, n⟩ := by
  rw [hs, hr]

theorem deserializeSh_listTerm_eq {tw : Nat} {el : Sh} {s s1 : DeState}
    {vs : List Val}
    (h : deserializeTermList el tw (s.stream.length + 1) s = (.ok vs, s1)) :
    deserializeSh (.listTerm tw el) s = (.ok (.listTerm tw vs), s1) := by
  simp only [deserializeSh, h]

theorem deserializeSh_listNonTerm_eq {el : Sh} {s s1 : DeState}
    {vs : List Val}
    (h : deserializeNonTermList el (s.stream.length + 1) s = (.ok vs, s1)) :
    deserializeSh (.listNonTerm el) s = (.ok (.listNonTerm vs), s1) := by
  simp only [deserializeSh, h]

theorem serialize_listPref_ok {lw : Nat} {es : List Val} {bs : List Nat}
    (h : serializeVal (.listPref lw es) = .ok bs) :
    es.length < 256 ^ lw ∧ ∃ body, serializeList es = .ok body ∧
      bs = beBytes lw es.length ++ body := by
  rw [serializeVal] at h
  split at h
  case isTrue hlt =>
    refine ⟨hlt, ?_⟩
    cases hb : serializeList es with
    | ok body =>
      rw [hb] at h
      simp at h
      exact ⟨body, rfl, h.symm⟩
    | error e => rw [hb] at h; simp at h
  case isFalse => simp at h

theorem serialize_listTerm_ok {tw : Nat} {es : List Val} {bs : List Nat}
    (h : serializeVal (.listTerm tw es) = .ok bs) :
    ∃ body, serializeList es = .ok body ∧ bs = body ++ beBytes tw 0 := by
  rw [serializeVal] at h
  cases hb : serializeList es with
  | ok body =>
    rw [hb] at h
    simp at h
    exact ⟨body, rfl, h.symm⟩
  | error e => rw [hb] at h; simp at h

theorem rtA_listPref {lw : Nat} {el : Sh} {es : List Val}
    (hlen : es.length < 256 ^ lw) (hel : ∀ v ∈ es, RTA el v) :
    RTA (.listPref lw el) (.listPref lw es) := by
  intro bs rest k hser
  obtain ⟨_, body, hbody, rfl⟩ := serialize_listPref_ok hser
  have hstate : (⟨(beBytes lw es.length ++ body) ++ rest,
      (beBytes lw es.length ++ body).length + k⟩ : DeState) =
      ⟨beBytes lw es.length ++ (body ++ rest),
        (beBytes lw es.length).length + (body.length + k)⟩ :=
    mkDeState_congr (by rw [List.append_assoc])
      (by simp only [List.length_append]; omega)
  have hr : readBE lw ⟨(beBytes lw es.length ++ body) ++ rest,
      (beBytes lw es.length ++ body).length + k⟩ =
      (.ok es.length, ⟨body ++ rest, body.length + k⟩) := by
    rw [hstate]
    have := @readBE_append _ (beBytes lw es.length)
      (body ++ rest) (body.length + k) (beBytes_length lw _)
    rw [beVal_beBytes_of_lt hlen] at this
    exact this
  have hc := deserializeCount_rt es body rest k
    (fun v hv b r kk hs => hel v hv b r kk hs) hbody
  simp only [deserializeSh, hr, hc]

theorem rtA_listTerm {tw : Nat} {el : Sh} {es : List Val} (htw : 0 < tw)
    (hel : ∀ v ∈ es, RTA el v)
    (hterm : ∀ v ∈ es, termElemOK tw v = true) :
    RTA (.listTerm tw el) (.listTerm tw es) := by
  intro bs rest k hser
  obtain ⟨body, hbody, rfl⟩ := serialize_listTerm_ok hser
  have hstate : (⟨(body ++ beBytes tw 0) ++ rest,
      (body ++ beBytes tw 0).length + k⟩ : DeState) =
      ⟨body ++ (List.replicate tw 0 ++ rest), body.length + tw + k⟩ :=
    mkDeState_congr
      (by rw [beBytes_zero_eq_replicate, List.append_assoc])
      (by simp only [List.length_append, beBytes_length])
  have ht := @deserializeTermList_rt el tw es body rest k
    ((body ++ (List.replicate tw 0 ++ rest)).length + 1) htw
    (fun v hv b r kk hs => hel v hv b r kk hs) hterm hbody
    (by simp only [List.length_append, List.length_replicate]; omega)
  exact deserializeSh_listTerm_eq (by rw [hstate]; exact ht)

theorem rtB_listNonTerm {el : Sh} {es : List Val}
    (hel : ∀ v ∈ es, RTA el v)
    (hne : ∀ v ∈ es, encNonEmpty v = true) :
    RTB (.listNonTerm el) (.listNonTerm es) := by
  intro bs rest hser
  rw [show serializeVal (Val.listNonTerm es) = serializeList es from rfl]
    at hser
  have ht := @deserializeNonTermList_rt el es bs rest
    ((bs ++ rest).length + 1)
    (fun v hv b r kk hs => hel v hv b r kk hs) hne hser
    (by simp only [List.length_append]; omega)
  exact deserializeSh_listNonTerm_eq ht

theorem rtA_tup {shs : List Sh} {vs : List Val} (hf : RTAF shs vs) :
    RTA (.tup shs) (.tup vs) := by
  intro bs rest k hser
  rw [show serializeVal (Val.tup vs) = serializeList vs from rfl] at hser
  have := hf bs rest k hser
  simp only [deserializeSh, this]

theorem rtB_tup {shs : List Sh} {vs : List Val} (hf : RTBF shs vs) :
    RTB (.tup shs) (.tup vs) := by
  intro bs rest hser
  rw [show serializeVal (Val.tup vs) = serializeList vs from rfl] at hser
  have := hf bs rest hser
  simp only [deserializeSh, this]

theorem rtAF_nil : RTAF [] [] := by
  intro bs rest k hser
  rw [serializeList_nil] at hser
  cases hser
  simp [deserializeFields]

theorem rtBF_nil : RTBF [] [] := by
  intro bs rest hser
  rw [serializeList_nil] at hser
  cases hser
  simp [deserializeFields]

theorem rtAF_cons {sh : Sh} {shs : List Sh} {v : Val} {vs : List Val}
    (h1 : RTA sh v) (h2 : RTAF shs vs) : RTAF (sh :: shs) (v :: vs) := by
  intro bs rest k hser
  obtain ⟨b, r, hv, hvs, rfl⟩ := serializeList_cons_ok hser
  rw [state_assoc]
  have e1 := h1 b (r ++ rest) (r.length + k) hv
  have e2 := h2 r rest k hvs
  simp only [deserializeFields, e1, e2]

theorem rtBF_single {sh : Sh} {v : Val} (h : RTB sh v) : RTBF [sh] [v] := by
  intro bs rest hser
  obtain ⟨b, r, hv, hvs, rfl⟩ := serializeList_cons_ok hser
  rw [serializeList_nil] at hvs
  cases hvs
  have hstate : (⟨(b ++ []) ++ rest, (b ++ []).length⟩ : DeState) =
      ⟨b ++ rest, b.length⟩ :=
    mkDeState_congr (by simp) (by simp)
  rw [hstate]
  have e1 := h b rest hv
  simp only [deserializeFields, e1]

theorem rtBF_cons {sh s2 : Sh} {ss : List Sh} {v : Val} {vs : List Val}
    (h1 : RTA sh v) (h2 : RTBF (s2 :: ss) vs) :
    RTBF (sh :: s2 :: ss) (v :: vs) := by
  intro bs rest hser
  obtain ⟨b, r, hv, hvs, rfl⟩ := serializeList_cons_ok hser
  have hstate : (⟨(b ++ r) ++ rest, (b ++ r).length⟩ : DeState) =
      ⟨b ++ (r ++ rest), b.length + r.length⟩ :=
    mkDeState_congr (by rw [List.append_assoc])
      (by simp only [List.length_append])
  rw [hstate]
  have e1 := h1 b (r ++ rest) r.length hv
  have e2 := h2 r rest hvs
  simp only [deserializeFields, e1, e2]

/-- Main round-trip induction: every well-formed value round-trips through
the codec — with arbitrary surplus budget for `ListNonTerm`-free shapes,
and with exact budget whenever `ListNonTerm` occurs only in budget-tail
position. -/
theorem roundtrip_main :
    ∀ N : Nat,
      (∀ sh v, valW v ≤ N → wfVal sh v = true →
        (noLNT sh = true → RTA sh v) ∧ (lntLast sh = true → RTB sh v)) ∧
      (∀ shs vs, valWL vs ≤ N → wfFields shs vs = true →
        (noLNTF shs = true → RTAF shs vs) ∧
        (lntLastF shs = true → RTBF shs vs)) := by
  intro N
  induction N using Nat.strong_induction_on with
  | _ N IH =>
    constructor
    · intro sh v hN hwf
      cases sh <;> cases v <;>
        try (exfalso; simp [wfVal] at hwf; done)
      case word.word w w2 x =>
        simp only [wfVal, Bool.and_eq_true, beq_iff_eq,
          decide_eq_true_eq] at hwf
        obtain ⟨rfl, hx⟩ := hwf
        exact ⟨fun _ => rtA_word hx, fun _ => RTB_of_RTA (rtA_word hx)⟩
      case boolSh.bool b =>
        exact ⟨fun _ => rtA_bool b, fun _ => RTB_of_RTA (rtA_bool b)⟩
      case fixedStr.fixedStr n bytes =>
        simp only [wfVal, Bool.and_eq_true, beq_iff_eq,
          decide_eq_true_eq] at hwf
        obtain ⟨hlen, hcap⟩ := hwf
        exact ⟨fun _ => rtA_fixedStr hlen hcap,
          fun _ => RTB_of_RTA (rtA_fixedStr hlen hcap)⟩
      case cstr.cstr s =>
        simp only [wfVal, List.all_eq_true, Bool.and_eq_true,
          decide_eq_true_eq] at hwf
        exact ⟨fun _ => rtA_cstr hwf, fun _ => RTB_of_RTA (rtA_cstr hwf)⟩
      case enum.enum w valid w2 x =>
        simp only [wfVal, Bool.and_eq_true, beq_iff_eq,
          decide_eq_true_eq] at hwf
        obtain ⟨⟨rfl, hc⟩, hx⟩ := hwf
        exact ⟨fun _ => rtA_enum hx hc, fun _ => RTB_of_RTA (rtA_enum hx hc)⟩
      case tup.tup shs vs =>
        simp only [wfVal] at hwf
        simp only [valW] at hN
        have hlt : valWL vs < N := by omega
        have hF := (IH (valWL vs) hlt).2 shs vs le_rfl hwf
        constructor
        · intro hno
          simp only [noLNT] at hno
          exact rtA_tup (hF.1 hno)
        · intro hll
          simp only [lntLast] at hll
          exact rtB_tup (hF.2 hll)
      case listPref.listPref lw el lw2 es =>
        simp only [wfVal, Bool.and_eq_true, beq_iff_eq,
          decide_eq_true_eq] at hwf
        simp only [valW] at hN
        obtain ⟨⟨rfl, hlen⟩, hall⟩ := hwf
        have hel : ∀ v ∈ es, noLNT el = true → RTA el v := by
          intro v hv hno
          have hvlt : valW v < N := by
            have h1 := valW_le_of_mem hv
            omega
          exact ((IH (valW v) hvlt).1 el v le_rfl (wfAll_mem hall v hv)).1 hno
        constructor
        · intro hno
          simp only [noLNT] at hno
          exact rtA_listPref hlen (fun v hv => hel v hv hno)
        · intro hll
          simp only [lntLast] at hll
          exact RTB_of_RTA (rtA_listPref hlen (fun v hv => hel v hv hll))
      case listTerm.listTerm tw el tw2 es =>
        simp only [wfVal, Bool.and_eq_true, beq_iff_eq,
          decide_eq_true_eq, List.all_eq_true] at hwf
        simp only [valW] at hN
        obtain ⟨⟨⟨rfl, htw⟩, hall⟩, hterm⟩ := hwf
        have hel : ∀ v ∈ es, noLNT el = true → RTA el v := by
          intro v hv hno
          have hvlt : valW v < N := by
            have h1 := valW_le_of_mem hv
            omega
          exact ((IH (valW v) hvlt).1 el v le_rfl (wfAll_mem hall v hv)).1 hno
        constructor
        · intro hno
          simp only [noLNT] at hno
          exact rtA_listTerm htw (fun v hv => hel v hv hno) hterm
        · intro hll
          simp only [lntLast] at hll
          exact RTB_of_RTA (rtA_listTerm htw (fun v hv => hel v hv hll) hterm)
      case listNonTerm.listNonTerm el es =>
        simp only [wfVal, Bool.and_eq_true, List.all_eq_true] at hwf
        simp only [valW] at hN
        obtain ⟨hall, hne⟩ := hwf
        constructor
        · intro hno
          simp only [noLNT] at hno
          exact absurd hno (by simp)
        · intro hll
          simp only [lntLast] at hll
          have hel : ∀ v ∈ es, RTA el v := by
            intro v hv
            have hvlt : valW v < N := by
              have h1 := valW_le_of_mem hv
              omega
            exact ((IH (valW v) hvlt).1 el v le_rfl (wfAll_mem hall v hv)).1 hll
          exact rtB_listNonTerm hel hne
    · intro shs vs hN hwf
      cases shs with
      | nil =>
        cases vs with
        | nil => exact ⟨fun _ => rtAF_nil, fun _ => rtBF_nil⟩
        | cons v vs => exfalso; simp [wfFields] at hwf
      | cons sh shs =>
        cases vs with
        | nil => exfalso; simp [wfFields] at hwf
        | cons v vs =>
          rw [wfFields, Bool.and_eq_true] at hwf
          obtain ⟨hv, hvs⟩ := hwf
          have hvlt : valW v < N := by
            have h1 := valW_pos v
            have h2 := valWL_pos vs
            have h3 : valWL (v :: vs) = 1 + valW v + valWL vs := rfl
            omega
          have hvslt : valWL vs < N := by
            have h1 := valW_pos v
            have h3 : valWL (v :: vs) = 1 + valW v + valWL vs := rfl
            omega
          have hV := (IH (valW v) hvlt).1 sh v le_rfl hv
          have hVS := (IH (valWL vs) hvslt).2 shs vs le_rfl hvs
          constructor
          · intro hno
            rw [noLNTF, Bool.and_eq_true] at hno
            exact rtAF_cons (hV.1 hno.1) (hVS.1 hno.2)
          · intro hll
            cases shs with
            | nil =>
              cases vs with
              | nil =>
                rw [show lntLastF [sh] = lntLast sh from rfl] at hll
                exact rtBF_single (hV.2 hll)
              | cons w ws => exfalso; simp [wfFields] at hvs
            | cons s2 ss =>
              rw [show lntLastF (sh :: s2 :: ss) =
                (noLNT sh && lntLastF (s2 :: ss)) from rfl,
                Bool.and_eq_true] at hll
              cases vs with
              | nil => exfalso; simp [wfFields] at hvs
              | cons w ws =>
                exact rtBF_cons (hV.1 hll.1) (hVS.2 hll.2)

/-- Round-trip corollary of `roundtrip_main`, exact-budget form. -/
theorem wf_rtB {sh : Sh} {v : Val} (hwf : wfVal sh v = true)
    (hll : lntLast sh = true) : RTB sh v :=
  ((roundtrip_main (valW v)).1 sh v le_rfl hwf).2 hll

/-- Round-trip corollary of `roundtrip_main`, surplus-budget form. -/
theorem wf_rtA {sh : Sh} {v : Val} (hwf : wfVal sh v = true)
    (hno : noLNT sh = true) : RTA sh v :=
  ((roundtrip_main (valW v)).1 sh v le_rfl hwf).1 hno

mutual

/-- The constant wire size of a shape, when it has one (fixed-width
scalars, enums, fixed strings, and structs of such). -/
def shSizeD : Sh → Option Nat
  | .word w => some w
  | .boolSh => some 1
  | .fixedStr n => some n
  | .cstr => none
  | .enum w _ => some w
  | .tup shs => shSizeDF shs
  | .listPref _ _ => none
  | .listTerm _ _ => none
  | .listNonTerm _ => none

/-- Constant wire size of a field list, when every field has one. -/
def shSizeDF : List Sh → Option Nat
  | [] => some 0
  | sh :: rest =>
    match shSizeD sh, shSizeDF rest with
    | some a, some b => some (a + b)
    | _, _ => none

end

/-- A well-formed value of a constant-size shape always encodes to exactly
that many bytes. -/
theorem encLen_of_shSizeD :
    ∀ N : Nat,
      (∀ sh v n bs, shW sh ≤ N → wfVal sh v = true → shSizeD sh = some n →
        serializeVal v = .ok bs → bs.length = n) ∧
      (∀ shs vs n bs, shWF shs ≤ N → wfFields shs vs = true →
        shSizeDF shs = some n → serializeList vs = .ok bs →
        bs.length = n) := by
  intro N
  induction N using Nat.strong_induction_on with
  | _ N IH =>
    constructor
    · intro sh v n bs hN hwf hsz hser
      cases sh <;> cases v <;>
        first
        | (exfalso; simp [wfVal] at hwf; done)
        | (exfalso; simp [shSizeD] at hsz; done)
        | skip
      case word.word w w2 x =>
        simp only [wfVal, Bool.and_eq_true, beq_iff_eq,
          decide_eq_true_eq] at hwf
        obtain ⟨hww, _⟩ := hwf
        rw [show serializeVal (Val.word w2 x) = .ok (beBytes w2 x) from rfl]
          at hser
        cases hser
        simp only [shSizeD, Option.some.injEq] at hsz
        rw [beBytes_length, hww, hsz]
      case boolSh.bool b =>
        rw [show serializeVal (Val.bool b) = .ok [if b then 1 else 0]
          from rfl] at hser
        cases hser
        simp only [shSizeD, Option.some.injEq] at hsz
        simp [hsz.symm]
      case fixedStr.fixedStr m bytes =>
        simp only [wfVal, Bool.and_eq_true, beq_iff_eq,
          decide_eq_true_eq] at hwf
        obtain ⟨hlen, hcap⟩ := hwf
        rw [show serializeVal (Val.fixedStr bytes) =
          (if bytes.length ≤ 65535 then .ok bytes
           else .error (.Serialization ("FixedStr must have a length <= u16::MAX")))
          from rfl, if_pos (hlen ▸ hcap)] at hser
        cases hser
        simp only [shSizeD, Option.some.injEq] at hsz
        rw [hlen, hsz]
      case enum.enum w valid w2 x =>
        simp only [wfVal, Bool.and_eq_true, beq_iff_eq,
          decide_eq_true_eq] at hwf
        obtain ⟨⟨hww, _⟩, _⟩ := hwf
        rw [show serializeVal (Val.enum w2 x) = .ok (beBytes w2 x) from rfl]
          at hser
        cases hser
        simp only [shSizeD, Option.some.injEq] at hsz
        rw [beBytes_length, hww, hsz]
      case tup.tup shs vs =>
        simp only [wfVal] at hwf
        simp only [shW] at hN
        simp only [shSizeD] at hsz
        rw [show serializeVal (Val.tup vs) = serializeList vs from rfl]
          at hser
        exact (IH (shWF shs) (by omega)).2 shs vs n bs le_rfl hwf hsz hser
    · intro shs vs n bs hN hwf hsz hser
      cases shs with
      | nil =>
        cases vs with
        | nil =>
          rw [serializeList_nil] at hser
          cases hser
          simp only [shSizeDF, Option.some.injEq] at hsz
          simp [hsz.symm]
        | cons v vs => exfalso; simp [wfFields] at hwf
      | cons sh shs =>
        cases vs with
        | nil => exfalso; simp [wfFields] at hwf
        | cons v vs =>
          rw [wfFields, Bool.and_eq_true] at hwf
          obtain ⟨hv, hvs⟩ := hwf
          simp only [shWF] at hN
          obtain ⟨b, r, hvb, hvsr, rfl⟩ := serializeList_cons_ok hser
          simp only [shSizeDF] at hsz
          cases ha : shSizeD sh with
          | none => rw [ha] at hsz; simp at hsz
          | some a =>
            rw [ha] at hsz
            cases hb : shSizeDF shs with
            | none => rw [hb] at hsz; simp at hsz
            | some c =>
              rw [hb] at hsz
              simp only [Option.some.injEq] at hsz
              have e1 := (IH (shW sh) (by omega)).1 sh v a b le_rfl hv ha hvb
              have e2 := (IH (shWF shs) (by omega)).2 shs vs c r le_rfl
                hvs hb hvsr
              simp only [List.length_append, e1, e2]
              omega

/-- Constant-size corollary at a single shape. -/
theorem encLen_const {sh : Sh} {v : Val} {n : Nat} {bs : List Nat}
    (hwf : wfVal sh v = true) (hsz : shSizeD sh = some n)
    (hser : serializeVal v = .ok bs) : bs.length = n :=
  (encLen_of_shSizeD (shW sh)).1 sh v n bs le_rfl hwf hsz hser

/-- `from_reader` on an exact-budget round-trip. -/
theorem fromReader_rtB {sh : Sh} {v : Val} {body rest : List Nat}
    (hwf : wfVal sh v = true) (hll : lntLast sh = true)
    (hser : serializeVal v = .ok body) :
    fromReader sh (body ++ rest) body.length = (.ok v, rest) := by
  have hRT := wf_rtB hwf hll body rest hser
  simp [fromReader, hRT]

/-- The envelope round-trip: `from_packet_data` inverts the envelope
writer on every well-formed value, under the envelope side conditions —
a declared `SIZE` equal to the body's constant wire size for fixed
packets, a 16-bit extended id, and a total length within the 16-bit size
field for variable-size packets. -/
theorem fromPacketData_encodePacket {d : Desc} {v : Val} {bs rest : List Nat}
    (hwf : wfVal d.sh v = true)
    (hll : lntLast d.sh = true)
    (hfix : ∀ n, d.size = some n → shSizeD d.sh = some n)
    (hext : ∀ e, d.extId = some e → e < 65536)
    (htot : ∀ body, d.size = none → serializeVal v = .ok body →
      1 + 2 + (if d.extId = none then 0 else 2) + body.length ≤ 65535)
    (henc : encodePacket d v = .ok bs) :
    fromPacketData d (bs ++ rest) = (.ok v, rest) := by
  unfold encodePacket at henc
  cases hser : serializeVal v with
  | error e => rw [hser] at henc; simp at henc
  | ok body =>
    rw [hser] at henc
    cases hdsz : d.size with
    | some n =>
      rw [hdsz] at henc
      simp only at henc
      cases henc
      have hbl : body.length = n := encLen_const hwf (hfix n hdsz) hser
      show fromPacketData d (d.id :: (body ++ rest)) = (.ok v, rest)
      simp only [fromPacketData]
      rw [if_pos trivial, hdsz]
      cases d.extId <;>
        simp only [← hbl, fromReader_rtB hwf hll hser]
    | none =>
      rw [hdsz] at henc
      cases hde : d.extId with
      | none =>
        rw [hde] at henc
        simp only at henc
        cases henc
        have htot2 := htot body hdsz hser
        rw [hde] at htot2
        simp only [if_pos rfl] at htot2
        have hszmod : (1 + 2 + body.length) % 65536 = 3 + body.length := by
          rw [Nat.mod_eq_of_lt (by omega)]
        rw [hszmod]
        show fromPacketData d
          ((d.id :: (beBytes 2 (3 + body.length) ++ body)) ++ rest) =
          (.ok v, rest)
        rw [List.cons_append]
        simp only [fromPacketData]
        rw [if_pos trivial, hdsz, hde]
        simp only
        rw [List.append_assoc]
        rw [if_pos (by simp [beBytes_length])]
        rw [show (beBytes 2 (3 + body.length) ++ (body ++ rest)).take 2 =
          beBytes 2 (3 + body.length) from
          List.take_left' (beBytes_length 2 _)]
        rw [show (beBytes 2 (3 + body.length) ++ (body ++ rest)).drop 2 =
          body ++ rest from List.drop_left' (beBytes_length 2 _)]
        rw [beVal_beBytes_of_lt (show 3 + body.length < 256 ^ 2 by
          norm_num; omega)]
        rw [show 3 + body.length - 1 - 2 = body.length by omega]
        exact fromReader_rtB hwf hll hser
      | some e =>
        rw [hde] at henc
        simp only at henc
        cases henc
        have htot2 := htot body hdsz hser
        rw [hde] at htot2
        simp only [if_neg (by simp : ¬(some e = none))] at htot2
        have he := hext e hde
        have hszmod : (1 + 2 + (2 + body.length)) % 65536 =
            5 + body.length := by
          rw [Nat.mod_eq_of_lt (by omega)]
          omega
        rw [hszmod]
        show fromPacketData d
          ((d.id :: ((beBytes 2 (5 + body.length) ++ beBytes 2 e) ++ body))
            ++ rest) = (.ok v, rest)
        rw [List.cons_append]
        simp only [fromPacketData]
        rw [if_pos trivial, hdsz, hde]
        simp only
        rw [List.append_assoc, List.append_assoc]
        rw [if_pos (by simp [beBytes_length])]
        rw [show (beBytes 2 (5 + body.length) ++
          (beBytes 2 e ++ (body ++ rest))).take 2 =
          beBytes 2 (5 + body.length) from
          List.take_left' (beBytes_length 2 _)]
        rw [show (beBytes 2 (5 + body.length) ++
          (beBytes 2 e ++ (body ++ rest))).drop 2 =
          beBytes 2 e ++ (body ++ rest) from
          List.drop_left' (beBytes_length 2 _)]
        rw [beVal_beBytes_of_lt (show 5 + body.length < 256 ^ 2 by
          norm_num; omega)]
        rw [if_pos (by simp [beBytes_length])]
        rw [show (beBytes 2 e ++ (body ++ rest)).take 2 = beBytes 2 e from
          List.take_left' (beBytes_length 2 _)]
        rw [show (beBytes 2 e ++ (body ++ rest)).drop 2 = body ++ rest from
          List.drop_left' (beBytes_length 2 _)]
        rw [beVal_beBytes_of_lt (show e < 256 ^ 2 by norm_num; omega)]
        rw [if_pos rfl]
        rw [show 5 + body.length - 1 - 2 - 2 = body.length by omega]
        exact fromReader_rtB hwf hll hser

/-! ## The catalog's envelope facts and the round-trip invariant -/

/-- Every catalog descriptor keeps `ListNonTerm` in budget-tail position,
declares a fixed `SIZE` (when it has one) equal to its body's constant
wire size, and keeps any extended id within 16 bits. -/
theorem catalog_facts : ∀ d ∈ catalog,
    lntLast d.sh = true ∧ (∀ n, d.size = some n → shSizeD d.sh = some n) ∧
    (∀ e, d.extId = some e → e < 65536) := by
  have hb : (catalog.all fun d =>
      lntLast d.sh &&
      (match d.size, shSizeD d.sh with
       | some n, some m => n == m
       | some _, none => false
       | none, _ => true) &&
      (match d.extId with
       | some e => decide (e < 65536)
       | none => true)) = true := by decide
  intro d hd
  have hone := List.all_eq_true.mp hb d hd
  rw [Bool.and_eq_true, Bool.and_eq_true] at hone
  obtain ⟨⟨h1, h2⟩, h3⟩ := hone
  refine ⟨h1, ?_, ?_⟩
  · intro n hn
    rw [hn] at h2
    cases hm : shSizeD d.sh with
    | none => rw [hm] at h2; simp at h2
    | some m =>
      rw [hm] at h2
      simp only [beq_iff_eq] at h2
      rw [h2]
  · intro e he
    rw [he] at h3
    exact of_decide_eq_true h3

mutual

/-- Modelled from the spec: the constraint set the spec's round-trip
invariant states for values (section 8, invariant 1: "satisfying its
constraints (ASCII strings, list lengths within their prefix bound,
declared enum discriminants)"), plus basic shape conformance — without
the stream-determinism conditions the codec also needs (NUL-free string
content, terminator-safe and non-empty list element encodings). -/
def c1Stated : Sh → Val → Bool
  | .word w, .word w2 v => w2 == w && decide (v < 256 ^ w)
  | .boolSh, .bool _ => true
  | .fixedStr n, .fixedStr bs => bs.length == n && decide (n ≤ 65535)
  | .cstr, .cstr s => s.all (fun b => decide (b < 128))
  | .enum w valid, .enum w2 v =>
    w2 == w && valid.contains v && decide (v < 256 ^ w)
  | .tup shs, .tup vs => c1StatedF shs vs
  | .listPref lw el, .listPref lw2 es =>
    lw2 == lw && decide (es.length < 256 ^ lw) && c1StatedAll el es
  | .listTerm tw el, .listTerm tw2 es => tw2 == tw && c1StatedAll el es
  | .listNonTerm el, .listNonTerm es => c1StatedAll el es
  | _, _ => false

/-- Modelled from the spec: `c1Stated` over struct fields. -/
def c1StatedF : List Sh → List Val → Bool
  | [], [] => true
  | sh :: shs, v :: vs => c1Stated sh v && c1StatedF shs vs
  | _, _ => false

/-- Modelled from the spec: `c1Stated` over list elements. -/
def c1StatedAll (el : Sh) : List Val → Bool
  | [] => true
  | v :: vs => c1Stated el v && c1StatedAll el vs

end

/-- C1: for every packet type in the catalog and every well-formed value
of its shape (with, for the variable-size envelopes, a total packet
length that fits the 16-bit size field), decoding the encoded packet
through `from_packet_data` yields the value again and consumes exactly
the packet's bytes. -/
theorem c1_roundtrip (d : Desc) (v : Val) (bs rest : List Nat)
    (hd : d ∈ catalog)
    (hwf : wfVal d.sh v = true)
    (htot : ∀ body, d.size = none → serializeVal v = .ok body →
      1 + 2 + (if d.extId = none then 0 else 2) + body.length ≤ 65535)
    (henc : encodePacket d v = .ok bs) :
    fromPacketData d (bs ++ rest) = (.ok v, rest) := by
  obtain ⟨hll, hfix, hext⟩ := catalog_facts d hd
  exact fromPacketData_encodePacket hwf hll hfix hext htot henc

/-- C1: the round-trip at a concrete input — a `PingReq` with value
`0x42` encodes to `[0x73, 0x42]` and decodes back, leaving trailing
bytes untouched. -/
theorem c1_roundtrip_witness :
    fromPacketData pingReqDesc ([0x73, 0x42] ++ [0xAA]) =
      (.ok (Val.tup [Val.word 1 0x42]), [0xAA]) :=
  c1_roundtrip pingReqDesc (Val.tup [Val.word 1 0x42]) [0x73, 0x42] [0xAA]
    (by simp [catalog]) (by decide)
    (fun body h _ => absurd h (by decide)) (by rfl)

/-- C1: counterexample to the claim as stated — a `VersionResp` whose
string content is the ASCII bytes `[0x41, 0x00]` satisfies every stated
constraint (ASCII strings, list bounds, declared discriminants), yet the
interior NUL truncates the string on decode and `from_packet_data`
returns `Deserialization("data remains after deserializing value")`
instead of the value. -/
theorem c1_roundtrip_counterexample :
    c1Stated versionRespDesc.sh (Val.tup [Val.cstr [0x41, 0x00]]) = true ∧
    encodePacket versionRespDesc (Val.tup [Val.cstr [0x41, 0x00]]) =
      .ok [0xBD, 0x00, 0x06, 0x41, 0x00, 0x00] ∧
    fromPacketData versionRespDesc [0xBD, 0x00, 0x06, 0x41, 0x00, 0x00] =
      (.error (Error.de dataRemainsMsg), [0x00]) := by
  refine ⟨by decide, by rfl, ?_⟩
  simp [fromPacketData, versionRespDesc, fromReader, deserializeSh,
    deserializeFields, splitNul, readBE, beVal]

/-! ## Byte-budget conservation

Every charged read consumes exactly as many stream bytes as budget, and
peeks touch neither — so a successful decode consumes stream and budget
in lockstep (`track_read` in `de.rs` pairs each consumption with its
charge). -/

/-- A deserializer run from `s` to `s1` that spent exactly as many
stream bytes as budget. -/
def consumes (s s1 : DeState) : Prop :=
  s1.remaining ≤ s.remaining ∧
  s.remaining - s1.remaining + s1.stream.length = s.stream.length

/-- Conservation composes over sequential runs. -/
theorem consumes_trans {s s1 s2 : DeState} (h1 : consumes s s1)
    (h2 : consumes s1 s2) : consumes s s2 := by
  obtain ⟨a1, b1⟩ := h1
  obtain ⟨a2, b2⟩ := h2
  exact ⟨le_trans a2 a1, by omega⟩

/-- Conservation of the empty run. -/
theorem consumes_rfl (s : DeState) : consumes s s := ⟨le_rfl, by omega⟩

/-- A successful charged read conserves. -/
theorem readBE_consumes {w : Nat} {s : DeState} {x : Nat} {s1 : DeState}
    (h : readBE w s = (.ok x, s1)) : consumes s s1 := by
  rw [readBE] at h
  by_cases hw : w ≤ s.stream.length
  · rw [if_pos hw] at h
    by_cases hr : w ≤ s.remaining
    · rw [if_pos hr] at h
      rw [Prod.mk.injEq] at h
      obtain ⟨-, hs⟩ := h
      subst hs
      refine ⟨Nat.sub_le _ _, ?_⟩
      simp only [List.length_drop]
      omega
    · rw [if_neg hr] at h
      simp at h
  · rw [if_neg hw] at h
    simp at h

/-- A successful peek needs the peeked bytes buffered. -/
theorem peekBE_le {w : Nat} {s : DeState} {t : Nat}
    (h : peekBE w s = .ok t) : w ≤ s.stream.length := by
  rw [peekBE] at h
  by_cases hw : w ≤ s.stream.length
  · exact hw
  · rw [if_neg hw] at h
    simp at h

/-- `splitNul` splits the stream into content, terminator and rest. -/
theorem splitNul_length : ∀ {bs c r : List Nat},
    splitNul bs = some (c, r) → bs.length = c.length + 1 + r.length := by
  intro bs
  induction bs with
  | nil => intro c r h; simp [splitNul] at h
  | cons b rest ih =>
    intro c r h
    rw [splitNul] at h
    by_cases hb : b = 0
    · rw [if_pos hb] at h
      simp only [Option.some.injEq, Prod.mk.injEq] at h
      obtain ⟨h1, h2⟩ := h
      subst h1
      subst h2
      simp only [List.length_cons, List.length_nil]
      omega
    · rw [if_neg hb] at h
      cases hs : splitNul rest with
      | none => rw [hs] at h; simp at h
      | some p =>
        obtain ⟨p1, p2⟩ := p
        rw [hs] at h
        simp only [Option.map_some', Option.some.injEq, Prod.mk.injEq] at h
        obtain ⟨h1, h2⟩ := h
        subst h1
        subst h2
        have := ih hs
        simp only [List.length_cons]
        omega

/-- The byte-at-a-time reader conserves. -/
theorem deserializeBytes_consumes :
    ∀ {n : Nat} {s : DeState} {bs : List Nat} {s1 : DeState},
      deserializeBytes n s = (.ok bs, s1) → consumes s s1 := by
  intro n
  induction n with
  | zero =>
    intro s bs s1 h
    rw [deserializeBytes] at h
    rw [Prod.mk.injEq] at h
    obtain ⟨-, hs⟩ := h
    subst hs
    exact consumes_rfl s
  | succ n ih =>
    intro s bs s1 h
    rw [deserializeBytes] at h
    rcases hr : readBE 1 s with ⟨r1, st1⟩
    simp only [hr] at h
    cases r1 with
    | error e => simp at h
    | ok b =>
      rcases hd : deserializeBytes n st1 with ⟨r2, st2⟩
      simp only [hd] at h
      cases r2 with
      | error e => simp at h
      | ok bs2 =>
        rw [Prod.mk.injEq] at h
        obtain ⟨-, hs⟩ := h
        subst hs
        exact consumes_trans (readBE_consumes hr) (ih hd)

/-- The count-driven element loop conserves when its element decoder
does. -/
theorem deserializeCount_consumes {el : Sh}
    (IHel : ∀ {s : DeState} {v : Val} {s1 : DeState},
      deserializeSh el s = (.ok v, s1) → consumes s s1) :
    ∀ {n : Nat} {s : DeState} {vs : List Val} {s1 : DeState},
      deserializeCount el n s = (.ok vs, s1) → consumes s s1 := by
  intro n
  induction n with
  | zero =>
    intro s vs s1 h
    rw [deserializeCount] at h
    rw [Prod.mk.injEq] at h
    obtain ⟨-, hs⟩ := h
    subst hs
    exact consumes_rfl s
  | succ n ih =>
    intro s vs s1 h
    rw [deserializeCount] at h
    rcases h1 : deserializeSh el s with ⟨r1, st1⟩
    simp only [h1] at h
    cases r1 with
    | error e => simp at h
    | ok v =>
      rcases h2 : deserializeCount el n st1 with ⟨r2, st2⟩
      simp only [h2] at h
      cases r2 with
      | error e => simp at h
      | ok vs2 =>
        rw [Prod.mk.injEq] at h
        obtain ⟨-, hs⟩ := h
        subst hs
        exact consumes_trans (IHel h1) (ih h2)

/-- The terminator-driven element loop conserves when its element
decoder does (the peeks charge nothing; the final terminator is
consumed and charged together). -/
theorem deserializeTermList_consumes {el : Sh} {tw : Nat}
    (IHel : ∀ {s : DeState} {v : Val} {s1 : DeState},
      deserializeSh el s = (.ok v, s1) → consumes s s1) :
    ∀ {fuel : Nat} {s : DeState} {vs : List Val} {s1 : DeState},
      deserializeTermList el tw fuel s = (.ok vs, s1) → consumes s s1 := by
  intro fuel
  induction fuel with
  | zero =>
    intro s vs s1 h
    rw [deserializeTermList] at h
    simp at h
  | succ fuel ih =>
    intro s vs s1 h
    rw [deserializeTermList] at h
    cases hpk : peekBE tw s with
    | error e => simp only [hpk] at h; simp at h
    | ok t =>
      simp only [hpk] at h
      have hlen := peekBE_le hpk
      by_cases ht : t = 0
      · simp only [if_pos ht] at h
        by_cases hch : tw ≤ s.remaining
        · simp only [if_pos hch] at h
          rw [Prod.mk.injEq] at h
          obtain ⟨-, hs⟩ := h
          subst hs
          refine ⟨Nat.sub_le _ _, ?_⟩
          simp only [List.length_drop]
          omega
        · simp only [if_neg hch] at h
          simp at h
      · simp only [if_neg ht] at h
        rcases h1 : deserializeSh el s with ⟨r1, st1⟩
        simp only [h1] at h
        cases r1 with
        | error e => simp at h
        | ok v =>
          by_cases hpr : st1.stream.length < s.stream.length
          · simp only [if_pos hpr] at h
            rcases h2 : deserializeTermList el tw fuel st1 with ⟨r2, st2⟩
            simp only [h2] at h
            cases r2 with
            | error e => simp at h
            | ok vs2 =>
              rw [Prod.mk.injEq] at h
              obtain ⟨-, hs⟩ := h
              subst hs
              exact consumes_trans (IHel h1) (ih h2)
          · simp only [if_neg hpr] at h
            simp at h

/-- The budget-driven element loop conserves when its element decoder
does. -/
theorem deserializeNonTermList_consumes {el : Sh}
    (IHel : ∀ {s : DeState} {v : Val} {s1 : DeState},
      deserializeSh el s = (.ok v, s1) → consumes s s1) :
    ∀ {fuel : Nat} {s : DeState} {vs : List Val} {s1 : DeState},
      deserializeNonTermList el fuel s = (.ok vs, s1) → consumes s s1 := by
  intro fuel
  induction fuel with
  | zero =>
    intro s vs s1 h
    rw [deserializeNonTermList] at h
    simp at h
  | succ fuel ih =>
    intro s vs s1 h
    rw [deserializeNonTermList] at h
    by_cases hz : s.remaining = 0
    · simp only [if_pos hz] at h
      rw [Prod.mk.injEq] at h
      obtain ⟨-, hs⟩ := h
      subst hs
      exact consumes_rfl s
    · simp only [if_neg hz] at h
      rcases h1 : deserializeSh el s with ⟨r1, st1⟩
      simp only [h1] at h
      cases r1 with
      | error e => simp at h
      | ok v =>
        by_cases hpr : st1.stream.length < s.stream.length
        · simp only [if_pos hpr] at h
          rcases h2 : deserializeNonTermList el fuel st1 with ⟨r2, st2⟩
          simp only [h2] at h
          cases r2 with
          | error e => simp at h
          | ok vs2 =>
            rw [Prod.mk.injEq] at h
            obtain ⟨-, hs⟩ := h
            subst hs
            exact consumes_trans (IHel h1) (ih h2)
        · simp only [if_neg hpr] at h
          simp at h

/-- The deserializer conserves: a successful decode consumes exactly as
many stream bytes as it charges to the budget (strong induction over the
shape weight, the loop lemmas supplying the element steps). -/
theorem conserve : ∀ N : Nat,
    (∀ sh, shW sh ≤ N → ∀ s v s1,
      deserializeSh sh s = (.ok v, s1) → consumes s s1) ∧
    (∀ shs, shWF shs ≤ N → ∀ s vs s1,
      deserializeFields shs s = (.ok vs, s1) → consumes s s1) := by
  intro N
  induction N using Nat.strong_induction_on with
  | _ N IH =>
    constructor
    · intro sh hN s v s1 h
      cases sh with
      | word w =>
        simp only [deserializeSh] at h
        rcases hr : readBE w s with ⟨r1, st1⟩
        cases r1 with
        | error e => simp only [hr] at h; simp at h
        | ok x =>
          simp only [hr] at h
          rw [Prod.mk.injEq] at h
          obtain ⟨-, hs⟩ := h
          subst hs
          exact readBE_consumes hr
      | boolSh =>
        simp only [deserializeSh] at h
        rcases hr : readBE 1 s with ⟨r1, st1⟩
        cases r1 with
        | error e => simp only [hr] at h; simp at h
        | ok x =>
          simp only [hr] at h
          rw [Prod.mk.injEq] at h
          obtain ⟨-, hs⟩ := h
          subst hs
          exact readBE_consumes hr
      | fixedStr n =>
        simp only [deserializeSh] at h
        rcases hd : deserializeBytes n s with ⟨r1, st1⟩
        cases r1 with
        | error e => simp only [hd] at h; simp at h
        | ok bs =>
          simp only [hd] at h
          rw [Prod.mk.injEq] at h
          obtain ⟨-, hs⟩ := h
          subst hs
          exact deserializeBytes_consumes hd
      | cstr =>
        simp only [deserializeSh] at h
        cases hsp : splitNul s.stream with
        | none => simp only [hsp] at h; simp at h
        | some p =>
          obtain ⟨c, r⟩ := p
          simp only [hsp] at h
          by_cases hch : c.length + 1 ≤ s.remaining
          · simp only [if_pos hch] at h
            have hsl := splitNul_length hsp
            by_cases hascii : (c.all fun b => b < 128) = true
            · simp only [if_pos hascii] at h
              rw [Prod.mk.injEq] at h
              obtain ⟨-, hs⟩ := h
              subst hs
              refine ⟨Nat.sub_le _ _, ?_⟩
              show s.remaining - (s.remaining - (c.length + 1)) + r.length =
                s.stream.length
              omega
            · simp only [if_neg hascii] at h
              simp at h
          · simp only [if_neg hch] at h
            simp at h
      | enum w valid =>
        simp only [deserializeSh] at h
        rcases hr : readBE w s with ⟨r1, st1⟩
        cases r1 with
        | error e => simp only [hr] at h; simp at h
        | ok x =>
          simp only [hr] at h
          by_cases hv : (valid.contains x) = true
          · simp only [if_pos hv] at h
            rw [Prod.mk.injEq] at h
            obtain ⟨-, hs⟩ := h
            subst hs
            exact readBE_consumes hr
          · simp only [if_neg hv] at h
            simp at h
      | tup shs =>
        simp only [deserializeSh] at h
        rcases hf : deserializeFields shs s with ⟨r1, st1⟩
        cases r1 with
        | error e => simp only [hf] at h; simp at h
        | ok vs =>
          simp only [hf] at h
          rw [Prod.mk.injEq] at h
          obtain ⟨-, hs⟩ := h
          subst hs
          simp only [shW] at hN
          exact (IH (shWF shs) (by omega)).2 shs le_rfl s vs st1 hf
      | listPref lw el =>
        simp only [deserializeSh] at h
        rcases hr : readBE lw s with ⟨r1, st1⟩
        cases r1 with
        | error e => simp only [hr] at h; simp at h
        | ok n =>
          simp only [hr] at h
          rcases hc : deserializeCount el n st1 with ⟨r2, st2⟩
          cases r2 with
          | error e => simp only [hc] at h; simp at h
          | ok es =>
            simp only [hc] at h
            rw [Prod.mk.injEq] at h
            obtain ⟨-, hs⟩ := h
            subst hs
            simp only [shW] at hN
            have IHel := (IH (shW el) (by omega)).1 el le_rfl
            exact consumes_trans (readBE_consumes hr)
              (deserializeCount_consumes (fun hh => IHel _ _ _ hh) hc)
      | listTerm tw el =>
        simp only [deserializeSh] at h
        rcases ht : deserializeTermList el tw (s.stream.length + 1) s
          with ⟨r1, st1⟩
        cases r1 with
        | error e => simp only [ht] at h; simp at h
        | ok es =>
          simp only [ht] at h
          rw [Prod.mk.injEq] at h
          obtain ⟨-, hs⟩ := h
          subst hs
          simp only [shW] at hN
          have IHel := (IH (shW el) (by omega)).1 el le_rfl
          exact deserializeTermList_consumes (fun hh => IHel _ _ _ hh) ht
      | listNonTerm el =>
        simp only [deserializeSh] at h
        rcases ht : deserializeNonTermList el (s.stream.length + 1) s
          with ⟨r1, st1⟩
        cases r1 with
        | error e => simp only [ht] at h; simp at h
        | ok es =>
          simp only [ht] at h
          rw [Prod.mk.injEq] at h
          obtain ⟨-, hs⟩ := h
          subst hs
          simp only [shW] at hN
          have IHel := (IH (shW el) (by omega)).1 el le_rfl
          exact deserializeNonTermList_consumes (fun hh => IHel _ _ _ hh) ht
    · intro shs hN s vs s1 h
      cases shs with
      | nil =>
        simp only [deserializeFields] at h
        rw [Prod.mk.injEq] at h
        obtain ⟨-, hs⟩ := h
        subst hs
        exact consumes_rfl s
      | cons sh rest =>
        simp only [deserializeFields] at h
        rcases h1 : deserializeSh sh s with ⟨r1, st1⟩
        cases r1 with
        | error e => simp only [h1] at h; simp at h
        | ok v =>
          simp only [h1] at h
          rcases h2 : deserializeFields rest st1 with ⟨r2, st2⟩
          cases r2 with
          | error e => simp only [h2] at h; simp at h
          | ok vs2 =>
            simp only [h2] at h
            rw [Prod.mk.injEq] at h
            obtain ⟨-, hs⟩ := h
            subst hs
            simp only [shWF] at hN
            exact consumes_trans
              ((IH (shW sh) (by omega)).1 sh le_rfl s v st1 h1)
              ((IH (shWF rest) (by omega)).2 rest le_rfl st1 vs2 st2 h2)

/-! ## Short-budget behaviour: overread is "read past end"

With the encoding's bytes buffered but the budget short of the
encoding's length, the decoder's first charge past the budget fails
through `track_read` with
`Deserialization("read past end of serialized value")` — for
`ListNonTerm`-free shapes, whose consumption is driven by the stream
rather than by the budget. -/

/-- A charged read past the budget (bytes buffered, budget short). -/
theorem readBE_cut {w m : Nat} {bs rest : List Nat}
    (hlen : w ≤ bs.length) (hm : m < w) :
    readBE w ⟨bs ++ rest, m⟩ =
      (.error (Error.de pastEndMsg), ⟨(bs ++ rest).drop w, m⟩) := by
  have hc1 : w ≤ (bs ++ rest).length := by
    simp only [List.length_append]
    omega
  rw [readBE, if_pos hc1, if_neg (show ¬w ≤ m by omega)]

/-- The byte-at-a-time reader past the budget. -/
theorem deserializeBytes_cut : ∀ {n : Nat} {bs rest : List Nat} {m : Nat},
    n ≤ bs.length → m < n →
    (deserializeBytes n ⟨bs ++ rest, m⟩).1 = .error (Error.de pastEndMsg) := by
  intro n
  induction n with
  | zero =>
    intro bs rest m hlen hm
    exact absurd hm (by omega)
  | succ n ih =>
    intro bs rest m hlen hm
    cases bs with
    | nil => simp at hlen
    | cons b bs2 =>
      by_cases h1 : 1 ≤ m
      · have hr : readBE 1 ⟨(b :: bs2) ++ rest, m⟩ =
            (.ok (beVal [b]), ⟨bs2 ++ rest, m - 1⟩) := by
          rw [readBE, if_pos (by simp), if_pos h1]
          rfl
        have hlen2 : n ≤ bs2.length := by
          simp only [List.length_cons] at hlen
          omega
        rcases hd : deserializeBytes n ⟨bs2 ++ rest, m - 1⟩ with ⟨r2, st2⟩
        have hr2 : r2 = .error (Error.de pastEndMsg) := by
          have := @ih bs2 rest (m - 1) hlen2 (show m - 1 < n by omega)
          rw [hd] at this
          exact this
        simp only [deserializeBytes, hr, hd, hr2]
      · have hr : readBE 1 ⟨(b :: bs2) ++ rest, m⟩ =
            (.error (Error.de pastEndMsg), ⟨bs2 ++ rest, m⟩) := by
          rw [readBE, if_pos (by simp), if_neg h1]
          rfl
        simp only [deserializeBytes, hr]

/-- A value whose decode, under any budget short of its full encoding
(with the encoding buffered), fails with the past-end error. -/
def CUTA (sh : Sh) (v : Val) : Prop :=
  ∀ (bs rest : List Nat) (m : Nat), serializeVal v = .ok bs →
    m < bs.length →
    (deserializeSh sh ⟨bs ++ rest, m⟩).1 = .error (Error.de pastEndMsg)

/-- The count-driven element loop past the budget: the first element the
budget cannot cover fails with the past-end error, which propagates. -/
theorem deserializeCount_cut {el : Sh} :
    ∀ (vs : List Val) (bs rest : List Nat) (m : Nat),
      (∀ v ∈ vs, RTA el v) →
      (∀ v ∈ vs, CUTA el v) →
      serializeList vs = .ok bs → m < bs.length →
      (deserializeCount el vs.length ⟨bs ++ rest, m⟩).1 =
        .error (Error.de pastEndMsg)
  | [], bs, rest, m, _, _, hser, hm => by
    rw [serializeList_nil] at hser
    cases hser
    simp at hm
  | v :: vs, bs, rest, m, hrta, hcut, hser, hm => by
    obtain ⟨b, r, hv, hvs, rfl⟩ := serializeList_cons_ok hser
    show (deserializeCount el (vs.length + 1) ⟨(b ++ r) ++ rest, m⟩).1 = _
    rw [List.append_assoc]
    by_cases hmb : m < b.length
    · have hc := hcut v (List.mem_cons_self v vs) b (r ++ rest) m hv hmb
      rcases hd : deserializeSh el ⟨b ++ (r ++ rest), m⟩ with ⟨r1, st1⟩
      have hr1 : r1 = .error (Error.de pastEndMsg) := by
        rw [hd] at hc
        exact hc
      simp only [deserializeCount, hd, hr1]
    · have hbr := hrta v (List.mem_cons_self v vs) b (r ++ rest)
        (m - b.length) hv
      rw [show b.length + (m - b.length) = m by omega] at hbr
      have hrec := deserializeCount_cut vs r rest (m - b.length)
        (fun w hw => hrta w (List.mem_cons_of_mem v hw))
        (fun w hw => hcut w (List.mem_cons_of_mem v hw)) hvs
        (by simp only [List.length_append] at hm; omega)
      rcases hd2 : deserializeCount el vs.length ⟨r ++ rest, m - b.length⟩
        with ⟨r2, st2⟩
      have hr2 : r2 = .error (Error.de pastEndMsg) := by
        rw [hd2] at hrec
        exact hrec
      simp only [deserializeCount, hbr, hd2, hr2]

/-- The terminator-driven element loop past the budget: either some
element's decode runs past the budget, or every element fits and the
terminator's charge fails. -/
theorem deserializeTermList_cut {el : Sh} {tw : Nat} (htw : 0 < tw) :
    ∀ (vs : List Val) (bs rest : List Nat) (m fuel : Nat),
      (∀ v ∈ vs, RTA el v) →
      (∀ v ∈ vs, CUTA el v) →
      (∀ v ∈ vs, termElemOK tw v = true) →
      serializeList vs = .ok bs →
      m < bs.length + tw →
      bs.length + tw + rest.length < fuel →
      (deserializeTermList el tw fuel
        ⟨bs ++ (List.replicate tw 0 ++ rest), m⟩).1 =
        .error (Error.de pastEndMsg)
  | [], bs, rest, m, fuel, _, _, _, hser, hm, hfuel => by
    rw [serializeList_nil] at hser
    cases hser
    obtain ⟨f, rfl⟩ : ∃ f, fuel = f + 1 := by
      cases fuel
      · omega
      · exact ⟨_, rfl⟩
    show (deserializeTermList el tw (f + 1)
      ⟨[] ++ (List.replicate tw 0 ++ rest), m⟩).1 = _
    simp only [List.nil_append, List.length_nil, Nat.zero_add] at hm ⊢
    have hpeek : peekBE tw ⟨List.replicate tw 0 ++ rest, m⟩ = .ok 0 := by
      rw [peekBE_of_le (by simp)]
      rw [show (⟨List.replicate tw 0 ++ rest, m⟩ : DeState).stream =
        List.replicate tw 0 ++ rest from rfl]
      rw [List.take_left' (by simp : (List.replicate tw 0).length = tw),
        beVal_replicate_zero]
    rw [deserializeTermList, hpeek]
    simp [show ¬tw ≤ m by omega]
  | v :: vs, bs, rest, m, fuel, hrta, hcut, hterm, hser, hm, hfuel => by
    obtain ⟨b, r, hv, hvs, rfl⟩ := serializeList_cons_ok hser
    obtain ⟨f, rfl⟩ : ∃ f, fuel = f + 1 := by
      cases fuel
      · omega
      · exact ⟨_, rfl⟩
    obtain ⟨hbl, hbv⟩ := termElemOK_spec (hterm v (List.mem_cons_self v vs)) hv
    show (deserializeTermList el tw (f + 1)
      ⟨(b ++ r) ++ (List.replicate tw 0 ++ rest), m⟩).1 = _
    rw [List.append_assoc]
    have hpeek : peekBE tw ⟨b ++ (r ++ (List.replicate tw 0 ++ rest)), m⟩ =
        .ok (beVal (b.take tw)) := by
      rw [peekBE_of_le (by simp; omega)]
      congr 1
      rw [show (⟨b ++ (r ++ (List.replicate tw 0 ++ rest)), m⟩
        : DeState).stream = b ++ (r ++ (List.replicate tw 0 ++ rest))
        from rfl]
      rw [List.take_append_of_le_length hbl]
    rw [deserializeTermList, hpeek]
    simp only [if_neg hbv]
    by_cases hmb : m < b.length
    · have hc := hcut v (List.mem_cons_self v vs) b
        (r ++ (List.replicate tw 0 ++ rest)) m hv hmb
      rcases hd : deserializeSh el
        ⟨b ++ (r ++ (List.replicate tw 0 ++ rest)), m⟩ with ⟨r1, st1⟩
      have hr1 : r1 = .error (Error.de pastEndMsg) := by
        rw [hd] at hc
        exact hc
      simp only [hd, hr1]
    · have hbr := hrta v (List.mem_cons_self v vs) b
        (r ++ (List.replicate tw 0 ++ rest)) (m - b.length) hv
      rw [show b.length + (m - b.length) = m by omega] at hbr
      have hrec := deserializeTermList_cut htw vs r rest (m - b.length) f
        (fun w hw => hrta w (List.mem_cons_of_mem v hw))
        (fun w hw => hcut w (List.mem_cons_of_mem v hw))
        (fun w hw => hterm w (List.mem_cons_of_mem v hw)) hvs
        (by simp only [List.length_append] at hm; omega)
        (by simp only [List.length_append] at hfuel; omega)
      rcases hd2 : deserializeTermList el tw f
        ⟨r ++ (List.replicate tw 0 ++ rest), m - b.length⟩ with ⟨r2, st2⟩
      have hr2 : r2 = .error (Error.de pastEndMsg) := by
        rw [hd2] at hrec
        exact hrec
      simp only [hbr]
      split
      next => simp only [hd2, hr2]
      next hcon =>
        exfalso
        apply hcon
        simp
        omega

/-- Propagate a terminator-list error through `deserializeSh`. -/
theorem deserializeSh_listTerm_err {tw : Nat} {el : Sh} {s s1 : DeState}
    {e : Error}
    (h : deserializeTermList el tw (s.stream.length + 1) s =
      (.error e, s1)) :
    deserializeSh (.listTerm tw el) s = (.error e, s1) := by
  simp only [deserializeSh, h]

/-- Short budget at a word. -/
theorem cutA_word {w x : Nat} : CUTA (.word w) (.word w x) := by
  intro bs rest m hser hm
  rw [show serializeVal (Val.word w x) = .ok (beBytes w x) from rfl] at hser
  cases hser
  rw [beBytes_length] at hm
  have hr := @readBE_cut w m (beBytes w x) rest (by rw [beBytes_length]) hm
  simp only [deserializeSh, hr]

/-- Short budget at a bool. -/
theorem cutA_bool {b : Bool} : CUTA .boolSh (.bool b) := by
  intro bs rest m hser hm
  rw [show serializeVal (Val.bool b) = .ok [if b then 1 else 0] from rfl]
    at hser
  cases hser
  simp only [List.length_cons, List.length_nil] at hm
  have hr := @readBE_cut 1 m [if b then 1 else 0] rest (by simp) (by omega)
  simp only [deserializeSh, hr]

/-- Short budget at a fixed-length string. -/
theorem cutA_fixedStr {n : Nat} {bytes : List Nat}
    (hlen : bytes.length = n) (hcap : n ≤ 65535) :
    CUTA (.fixedStr n) (.fixedStr bytes) := by
  intro bs rest m hser hm
  rw [show serializeVal (Val.fixedStr bytes) =
    (if bytes.length ≤ 65535 then .ok bytes
     else .error (.Serialization ("FixedStr must have a length <= u16::MAX")))
    from rfl, if_pos (hlen ▸ hcap)] at hser
  cases hser
  rcases hd : deserializeBytes n ⟨bytes ++ rest, m⟩ with ⟨r1, st1⟩
  have hr1 : r1 = .error (Error.de pastEndMsg) := by
    have := @deserializeBytes_cut n bytes rest m
      (show n ≤ bytes.length by omega) (show m < n by omega)
    rw [hd] at this
    exact this
  simp only [deserializeSh, hd, hr1]

/-- Short budget at a NUL-terminated string. -/
theorem cutA_cstr {s : List Nat} (h : ∀ x ∈ s, 0 < x ∧ x < 128) :
    CUTA .cstr (.cstr s) := by
  intro bs rest m hser hm
  have hascii : s.all (fun b => b < 128) = true := by
    rw [List.all_eq_true]
    intro x hx
    exact decide_eq_true (h x hx).2
  rw [show serializeVal (Val.cstr s) =
    (if s.all (fun b => b < 128) then .ok (s ++ [0])
     else .error (.Data ("non-ASCII string"))) from rfl, if_pos hascii]
    at hser
  cases hser
  have hsplit : splitNul ((s ++ [0]) ++ rest) = some (s, rest) := by
    rw [List.append_assoc]
    exact splitNul_append (fun b hb => Nat.pos_iff_ne_zero.mp (h b hb).1)
  simp only [List.length_append, List.length_cons, List.length_nil] at hm
  simp only [deserializeSh, hsplit]
  rw [if_neg (show ¬s.length + 1 ≤ m by omega)]

/-- Short budget at an enum discriminant. -/
theorem cutA_enum {w x : Nat} {valid : List Nat} :
    CUTA (.enum w valid) (.enum w x) := by
  intro bs rest m hser hm
  rw [show serializeVal (Val.enum w x) = .ok (beBytes w x) from rfl] at hser
  cases hser
  rw [beBytes_length] at hm
  have hr := @readBE_cut w m (beBytes w x) rest (by rw [beBytes_length]) hm
  simp only [deserializeSh, hr]

/-- Short budget through struct fields. -/
def CUTAF (shs : List Sh) (vs : List Val) : Prop :=
  ∀ (bs rest : List Nat) (m : Nat), serializeList vs = .ok bs →
    m < bs.length →
    (deserializeFields shs ⟨bs ++ rest, m⟩).1 = .error (Error.de pastEndMsg)

/-- Short budget at a struct. -/
theorem cutA_tup {shs : List Sh} {vs : List Val} (hf : CUTAF shs vs) :
    CUTA (.tup shs) (.tup vs) := by
  intro bs rest m hser hm
  rw [show serializeVal (Val.tup vs) = serializeList vs from rfl] at hser
  have hc := hf bs rest m hser hm
  rcases hd : deserializeFields shs ⟨bs ++ rest, m⟩ with ⟨r1, st1⟩
  have hr1 : r1 = .error (Error.de pastEndMsg) := by
    rw [hd] at hc
    exact hc
  simp only [deserializeSh, hd, hr1]

/-- Short budget at a count-prefixed list. -/
theorem cutA_listPref {lw : Nat} {el : Sh} {es : List Val}
    (hlen : es.length < 256 ^ lw)
    (hrta : ∀ v ∈ es, RTA el v) (hcut : ∀ v ∈ es, CUTA el v) :
    CUTA (.listPref lw el) (.listPref lw es) := by
  intro bs rest m hser hm
  obtain ⟨-, body, hbody, rfl⟩ := serialize_listPref_ok hser
  rw [List.append_assoc]
  simp only [List.length_append, beBytes_length] at hm
  by_cases hml : m < lw
  · have hr := @readBE_cut lw m (beBytes lw es.length) (body ++ rest)
      (by rw [beBytes_length]) hml
    simp only [deserializeSh, hr]
  · have hr : readBE lw ⟨beBytes lw es.length ++ (body ++ rest), m⟩ =
        (.ok es.length, ⟨body ++ rest, m - lw⟩) := by
      nth_rewrite 1 [show m = (beBytes lw es.length).length + (m - lw) by
        rw [beBytes_length]; omega]
      have hra := @readBE_append _ (beBytes lw es.length)
        (body ++ rest) (m - lw) (beBytes_length lw _)
      rw [beVal_beBytes_of_lt hlen] at hra
      rw [hra]
    have hrc := deserializeCount_cut es body rest (m - lw) hrta hcut hbody
      (by omega)
    rcases hd : deserializeCount el es.length ⟨body ++ rest, m - lw⟩
      with ⟨r2, st2⟩
    have hr2 : r2 = .error (Error.de pastEndMsg) := by
      rw [hd] at hrc
      exact hrc
    simp only [deserializeSh, hr, hd, hr2]

/-- Short budget at a terminator list. -/
theorem cutA_listTerm {tw : Nat} {el : Sh} {es : List Val} (htw : 0 < tw)
    (hrta : ∀ v ∈ es, RTA el v) (hcut : ∀ v ∈ es, CUTA el v)
    (hterm : ∀ v ∈ es, termElemOK tw v = true) :
    CUTA (.listTerm tw el) (.listTerm tw es) := by
  intro bs rest m hser hm
  obtain ⟨body, hbody, rfl⟩ := serialize_listTerm_ok hser
  have hstate : (⟨(body ++ beBytes tw 0) ++ rest, m⟩ : DeState) =
      ⟨body ++ (List.replicate tw 0 ++ rest), m⟩ :=
    mkDeState_congr (by rw [beBytes_zero_eq_replicate, List.append_assoc])
      rfl
  rw [hstate]
  simp only [List.length_append, beBytes_length] at hm
  have hrc := deserializeTermList_cut htw es body rest m
    ((body ++ (List.replicate tw 0 ++ rest)).length + 1) hrta hcut hterm
    hbody (by omega)
    (by simp only [List.length_append, List.length_replicate]; omega)
  rcases hd : deserializeTermList el tw
    ((body ++ (List.replicate tw 0 ++ rest)).length + 1)
    ⟨body ++ (List.replicate tw 0 ++ rest), m⟩ with ⟨r1, st1⟩
  have hr1 : r1 = .error (Error.de pastEndMsg) := by
    rw [hd] at hrc
    exact hrc
  rw [hr1] at hd
  rw [deserializeSh_listTerm_err hd]

/-- Short budget through an empty field list is vacuous. -/
theorem cutAF_nil : CUTAF [] [] := by
  intro bs rest m hser hm
  rw [serializeList_nil] at hser
  cases hser
  simp at hm

/-- Short budget through a field cons: the budget cuts either the head
field or the tail. -/
theorem cutAF_cons {sh : Sh} {shs : List Sh} {v : Val} {vs : List Val}
    (h1a : RTA sh v) (h1c : CUTA sh v) (h2 : CUTAF shs vs) :
    CUTAF (sh :: shs) (v :: vs) := by
  intro bs rest m hser hm
  obtain ⟨b, r, hv, hvs, rfl⟩ := serializeList_cons_ok hser
  rw [List.append_assoc]
  simp only [List.length_append] at hm
  by_cases hmb : m < b.length
  · have hc := h1c b (r ++ rest) m hv hmb
    rcases hd : deserializeSh sh ⟨b ++ (r ++ rest), m⟩ with ⟨r1, st1⟩
    have hr1 : r1 = .error (Error.de pastEndMsg) := by
      rw [hd] at hc
      exact hc
    simp only [deserializeFields, hd, hr1]
  · have hbr := h1a b (r ++ rest) (m - b.length) hv
    rw [show b.length + (m - b.length) = m by omega] at hbr
    have hrec := h2 r rest (m - b.length) hvs (by omega)
    rcases hd2 : deserializeFields shs ⟨r ++ rest, m - b.length⟩
      with ⟨r2, st2⟩
    have hr2 : r2 = .error (Error.de pastEndMsg) := by
      rw [hd2] at hrec
      exact hrec
    simp only [deserializeFields, hbr, hd2, hr2]

/-- Short-budget main induction: decoding a well-formed
`ListNonTerm`-free value's encoding under a budget short of the
encoding's length fails with the past-end error. -/
theorem cutMain :
    ∀ N : Nat,
      (∀ sh v, valW v ≤ N → wfVal sh v = true → noLNT sh = true →
        CUTA sh v) ∧
      (∀ shs vs, valWL vs ≤ N → wfFields shs vs = true →
        noLNTF shs = true → CUTAF shs vs) := by
  intro N
  induction N using Nat.strong_induction_on with
  | _ N IH =>
    constructor
    · intro sh v hN hwf hno
      cases sh <;> cases v <;>
        try (exfalso; simp [wfVal] at hwf; done)
      case word.word w w2 x =>
        simp only [wfVal, Bool.and_eq_true, beq_iff_eq,
          decide_eq_true_eq] at hwf
        obtain ⟨rfl, hx⟩ := hwf
        exact cutA_word
      case boolSh.bool b => exact cutA_bool
      case fixedStr.fixedStr n bytes =>
        simp only [wfVal, Bool.and_eq_true, beq_iff_eq,
          decide_eq_true_eq] at hwf
        exact cutA_fixedStr hwf.1 hwf.2
      case cstr.cstr s =>
        simp only [wfVal, List.all_eq_true, Bool.and_eq_true,
          decide_eq_true_eq] at hwf
        exact cutA_cstr hwf
      case enum.enum w valid w2 x =>
        simp only [wfVal, Bool.and_eq_true, beq_iff_eq,
          decide_eq_true_eq] at hwf
        obtain ⟨⟨rfl, hc⟩, hx⟩ := hwf
        exact cutA_enum
      case tup.tup shs vs =>
        simp only [wfVal] at hwf
        simp only [valW] at hN
        simp only [noLNT] at hno
        exact cutA_tup ((IH (valWL vs) (by omega)).2 shs vs le_rfl hwf hno)
      case listPref.listPref lw el lw2 es =>
        simp only [wfVal, Bool.and_eq_true, beq_iff_eq,
          decide_eq_true_eq] at hwf
        simp only [valW] at hN
        simp only [noLNT] at hno
        obtain ⟨⟨rfl, hlen⟩, hall⟩ := hwf
        have helA : ∀ v ∈ es, RTA el v := fun v hv =>
          wf_rtA (wfAll_mem hall v hv) hno
        have helC : ∀ v ∈ es, CUTA el v := by
          intro v hv
          have hvlt : valW v < N := by
            have h1 := valW_le_of_mem hv
            omega
          exact (IH (valW v) hvlt).1 el v le_rfl (wfAll_mem hall v hv) hno
        exact cutA_listPref hlen helA helC
      case listTerm.listTerm tw el tw2 es =>
        simp only [wfVal, Bool.and_eq_true, beq_iff_eq,
          decide_eq_true_eq, List.all_eq_true] at hwf
        simp only [valW] at hN
        simp only [noLNT] at hno
        obtain ⟨⟨⟨rfl, htw⟩, hall⟩, hterm⟩ := hwf
        have helA : ∀ v ∈ es, RTA el v := fun v hv =>
          wf_rtA (wfAll_mem hall v hv) hno
        have helC : ∀ v ∈ es, CUTA el v := by
          intro v hv
          have hvlt : valW v < N := by
            have h1 := valW_le_of_mem hv
            omega
          exact (IH (valW v) hvlt).1 el v le_rfl (wfAll_mem hall v hv) hno
        exact cutA_listTerm htw helA helC hterm
      case listNonTerm.listNonTerm el es =>
        simp only [noLNT] at hno
        exact absurd hno (by simp)
    · intro shs vs hN hwf hno
      cases shs with
      | nil =>
        cases vs with
        | nil => exact cutAF_nil
        | cons v vs2 => exfalso; simp [wfFields] at hwf
      | cons sh shs2 =>
        cases vs with
        | nil => exfalso; simp [wfFields] at hwf
        | cons v vs2 =>
          rw [wfFields, Bool.and_eq_true] at hwf
          rw [noLNTF, Bool.and_eq_true] at hno
          simp only [valWL] at hN
          have h1a : RTA sh v := wf_rtA hwf.1 hno.1
          have h1c : CUTA sh v :=
            (IH (valW v) (by have := valWL_pos vs2; omega)).1 sh v le_rfl
              hwf.1 hno.1
          have h2 : CUTAF shs2 vs2 :=
            (IH (valWL vs2) (by have := valW_pos v; omega)).2 shs2 vs2
              le_rfl hwf.2 hno.2
          exact cutAF_cons h1a h1c h2

/-- C2: the body decoder's byte-budget discipline.  (1) A successful
`from_reader` run consumed exactly `size` bytes of the stream.  (2) A
value fully decoded with budget left over yields
`Deserialization("data remains after deserializing value")`.  (3) For a
well-formed `ListNonTerm`-free value, a budget short of the value's full
encoding yields `Deserialization("read past end of serialized value")`. -/
theorem c2_exact_budget :
    (∀ (sh : Sh) (stream : List Nat) (n : Nat) (v : Val)
        (leftover : List Nat),
      fromReader sh stream n = (.ok v, leftover) →
      stream.length = n + leftover.length) ∧
    (∀ (sh : Sh) (stream : List Nat) (n : Nat) (v : Val) (s1 : DeState),
      deserializeSh sh ⟨stream, n⟩ = (.ok v, s1) → 0 < s1.remaining →
      fromReader sh stream n =
        (.error (Error.de dataRemainsMsg), s1.stream)) ∧
    (∀ (sh : Sh) (v : Val) (body rest : List Nat) (m : Nat),
      wfVal sh v = true → noLNT sh = true → serializeVal v = .ok body →
      m < body.length →
      (fromReader sh (body ++ rest) m).1 = .error (Error.de pastEndMsg)) := by
  refine ⟨?_, ?_, ?_⟩
  · intro sh stream n v leftover h
    rw [fromReader] at h
    rcases hd : deserializeSh sh ⟨stream, n⟩ with ⟨r1, st1⟩
    cases r1 with
    | error e => simp only [hd] at h; simp at h
    | ok v1 =>
      simp only [hd] at h
      by_cases hz : st1.remaining = 0
      · simp only [if_pos hz] at h
        rw [Prod.mk.injEq] at h
        obtain ⟨-, hleft⟩ := h
        obtain ⟨hc1, hc2⟩ := (conserve (shW sh)).1 sh le_rfl
          ⟨stream, n⟩ v1 st1 hd
        have hc3 : n - st1.remaining + st1.stream.length = stream.length :=
          hc2
        have hc4 : st1.remaining ≤ n := hc1
        rw [hleft] at hc3
        rw [hz] at hc3 hc4
        show stream.length = n + leftover.length
        omega
      · simp only [if_neg hz] at h
        simp at h
  · intro sh stream n v s1 hd hr
    rw [fromReader]
    simp only [hd]
    rw [if_neg (by omega)]
  · intro sh v body rest m hwf hno hser hm
    have hcut := (cutMain (valW v)).1 sh v le_rfl hwf hno body rest m
      hser hm
    rcases hd : deserializeSh sh ⟨body ++ rest, m⟩ with ⟨r1, st1⟩
    have hr1 : r1 = .error (Error.de pastEndMsg) := by
      rw [hd] at hcut
      exact hcut
    simp only [fromReader, hd, hr1]

/-- C2: the budget discipline at a concrete input — decoding a 2-byte
word under a budget of 1 fails with the past-end error. -/
theorem c2_exact_budget_witness :
    (fromReader (.word 2) ([0x12, 0x34] ++ []) 1).1 =
      .error (Error.de pastEndMsg) :=
  c2_exact_budget.2.2 (.word 2) (Val.word 2 0x1234) [0x12, 0x34] [] 1
    (by decide) (by rfl) (by rfl) (by decide)

/-- C3: for variable-size (and extended) packets, the 16-bit big-endian
`size` field of the envelope carries the total encoded length reduced
modulo 2^16 (`size as u16` in `packet_from_content`), and therefore
equals the total length exactly when that length fits 16 bits. -/
theorem c3_size_field (d : Desc) (v : Val) (bs body : List Nat)
    (hvar : d.size = none) (hser : serializeVal v = .ok body)
    (henc : encodePacket d v = .ok bs) :
    beVal ((bs.drop 1).take 2) = bs.length % 65536 ∧
    (bs.length ≤ 65535 → beVal ((bs.drop 1).take 2) = bs.length) := by
  unfold encodePacket at henc
  rw [hser, hvar] at henc
  cases hde : d.extId with
  | none =>
    rw [hde] at henc
    simp only at henc
    cases henc
    have h1 : beVal (((d.id ::
        (beBytes 2 ((1 + 2 + body.length) % 65536) ++ body)).drop 1).take
          2) =
        (d.id :: (beBytes 2 ((1 + 2 + body.length) % 65536) ++
          body)).length % 65536 := by
      rw [show (d.id :: (beBytes 2 ((1 + 2 + body.length) % 65536) ++
        body)).drop 1 =
        beBytes 2 ((1 + 2 + body.length) % 65536) ++ body from rfl]
      rw [List.take_left' (beBytes_length 2 _)]
      rw [beVal_beBytes_of_lt
        (lt_of_lt_of_le (Nat.mod_lt _ (by norm_num)) (by norm_num))]
      simp only [List.length_cons, List.length_append, beBytes_length]
      omega
    refine ⟨h1, fun hle => ?_⟩
    have hle2 : (d.id :: (beBytes 2 ((1 + 2 + body.length) % 65536) ++
      body)).length ≤ 65535 := hle
    exact h1.trans (Nat.mod_eq_of_lt (by omega))
  | some e =>
    rw [hde] at henc
    simp only at henc
    cases henc
    have h1 : beVal (((d.id ::
        (beBytes 2 ((1 + 2 + (2 + body.length)) % 65536) ++ beBytes 2 e ++
          body)).drop 1).take 2) =
        (d.id :: (beBytes 2 ((1 + 2 + (2 + body.length)) % 65536) ++
          beBytes 2 e ++ body)).length % 65536 := by
      rw [show (d.id :: (beBytes 2 ((1 + 2 + (2 + body.length)) % 65536) ++
        beBytes 2 e ++ body)).drop 1 =
        beBytes 2 ((1 + 2 + (2 + body.length)) % 65536) ++ beBytes 2 e ++
          body from rfl]
      rw [List.append_assoc, List.take_left' (beBytes_length 2 _)]
      rw [beVal_beBytes_of_lt
        (lt_of_lt_of_le (Nat.mod_lt _ (by norm_num)) (by norm_num))]
      simp only [List.length_cons, List.length_append, beBytes_length]
      omega
    refine ⟨h1, fun hle => ?_⟩
    have hle2 : (d.id :: (beBytes 2 ((1 + 2 + (2 + body.length)) % 65536) ++
      beBytes 2 e ++ body)).length ≤ 65535 := hle
    exact h1.trans (Nat.mod_eq_of_lt (by omega))

/-- C3: the size field at a concrete input — the 13-byte encoded
`WindowSize` packet carries `0x000D = 13` in its size field. -/
theorem c3_size_field_witness :
    beVal ((([0xBF, 0x00, 0x0D, 0x00, 0x05, 0x14, 0x9B, 0x68, 0x21, 0xE3,
        0xBD, 0x0B, 0xCE] : List Nat).drop 1).take 2) =
      ([0xBF, 0x00, 0x0D, 0x00, 0x05, 0x14, 0x9B, 0x68, 0x21, 0xE3,
        0xBD, 0x0B, 0xCE] : List Nat).length % 65536 ∧
    (([0xBF, 0x00, 0x0D, 0x00, 0x05, 0x14, 0x9B, 0x68, 0x21, 0xE3,
        0xBD, 0x0B, 0xCE] : List Nat).length ≤ 65535 →
      beVal ((([0xBF, 0x00, 0x0D, 0x00, 0x05, 0x14, 0x9B, 0x68, 0x21,
        0xE3, 0xBD, 0x0B, 0xCE] : List Nat).drop 1).take 2) =
      ([0xBF, 0x00, 0x0D, 0x00, 0x05, 0x14, 0x9B, 0x68, 0x21, 0xE3,
        0xBD, 0x0B, 0xCE] : List Nat).length) :=
  c3_size_field windowSizeDesc
    (Val.tup [Val.word 4 345729057, Val.word 4 3820817358])
    [0xBF, 0x00, 0x0D, 0x00, 0x05, 0x14, 0x9B, 0x68, 0x21, 0xE3,
      0xBD, 0x0B, 0xCE]
    [0x14, 0x9B, 0x68, 0x21, 0xE3, 0xBD, 0x0B, 0xCE]
    (by rfl) (by rfl) (by rfl)

/-- The encoded bytes of a `VersionResp` whose string is 65533 bytes of
ASCII `A`: the total length 65537 overflows the 16-bit size field, which
wraps to 1. -/
def c3CexBytes : List Nat :=
  0xBD :: beBytes 2 1 ++ (List.replicate 65533 65 ++ [0])

set_option maxRecDepth 4096 in
/-- C3: counterexample to the claim as stated — a `VersionResp` whose
encoded total is 65537 bytes writes 1, not 65537, in its size field
(`size as u16` truncates modulo 2^16). -/
theorem c3_size_field_counterexample :
    encodePacket versionRespDesc
      (Val.tup [Val.cstr (List.replicate 65533 65)]) = .ok c3CexBytes ∧
    beVal ((c3CexBytes.drop 1).take 2) = 1 ∧
    c3CexBytes.length = 65537 := by
  have hascii : ((List.replicate 65533 65).all fun b => b < 128) = true := by
    rw [List.all_eq_true]
    intro x hx
    rw [List.eq_of_mem_replicate hx]
    decide
  have hser : serializeVal (Val.tup [Val.cstr (List.replicate 65533 65)]) =
      .ok (List.replicate 65533 65 ++ [0]) := by
    simp only [serializeVal, serializeList, hascii, eq_self_iff_true,
      if_true, List.append_nil]
  refine ⟨?_, ?_, ?_⟩
  · have h1 : encodePacket versionRespDesc
        (Val.tup [Val.cstr (List.replicate 65533 65)]) =
        .ok (0xBD :: beBytes 2
          ((1 + 2 + (List.replicate 65533 65 ++ [0]).length) % 65536) ++
          (List.replicate 65533 65 ++ [0])) := by
      unfold encodePacket
      rw [hser]
      rfl
    have hlen : (List.replicate 65533 65 ++ [0] : List Nat).length =
        65534 := by
      rw [List.length_append, List.length_replicate]
      rw [show ([0] : List Nat).length = 1 from rfl]
    rw [h1, hlen]
    rw [show (1 + 2 + 65534) % 65536 = 1 from by decide]
    rfl
  · rw [show c3CexBytes.drop 1 =
      beBytes 2 1 ++ (List.replicate 65533 65 ++ [0]) from rfl]
    rw [List.take_left' (beBytes_length 2 _)]
    rw [beVal_beBytes_of_lt (by norm_num)]
  · rw [show c3CexBytes =
      0xBD :: (beBytes 2 1 ++ (List.replicate 65533 65 ++ [0])) from rfl]
    rw [List.length_cons, List.length_append, List.length_append,
      List.length_replicate, beBytes_length]
    rw [show ([0] : List Nat).length = 1 from rfl]

/-- C4: over the catalog, a fixed-size packet's encoding is its declared
`SIZE` plus one — `SIZE` counts the body, and the id byte precedes it. -/
theorem c4_fixed_size (d : Desc) (v : Val) (bs : List Nat) (n : Nat)
    (hd : d ∈ catalog) (hsz : d.size = some n)
    (hwf : wfVal d.sh v = true)
    (henc : encodePacket d v = .ok bs) :
    bs.length = n + 1 := by
  obtain ⟨-, hfix, -⟩ := catalog_facts d hd
  unfold encodePacket at henc
  cases hser : serializeVal v with
  | error e => rw [hser] at henc; simp at henc
  | ok body =>
    rw [hser, hsz] at henc
    simp only at henc
    cases henc
    have hbl : body.length = n := encLen_const hwf (hfix n hsz) hser
    simp only [List.length_cons]
    omega

/-- C4: the fixed-size envelope at a concrete input — the encoded
`PingReq` (declared `SIZE = 1`) is two bytes. -/
theorem c4_fixed_size_witness : ([0x73, 0x42] : List Nat).length = 1 + 1 :=
  c4_fixed_size pingReqDesc (Val.tup [Val.word 1 0x42]) [0x73, 0x42] 1
    (by simp [catalog]) (by rfl) (by decide) (by rfl)

/-- C4: counterexample to the claim as stated — `LoginComplete` is
declared `Fixed(size = 0)` yet encodes to one byte (the id), so the
encoded length is not the declared `n`: `Fixed(n)` counts the body
excluding the id byte, not the whole envelope. -/
theorem c4_fixed_size_counterexample :
    loginCompleteDesc.size = some 0 ∧
    encodePacket loginCompleteDesc (Val.tup []) = .ok [0x55] ∧
    ([0x55] : List Nat).length ≠ 0 :=
  ⟨rfl, rfl, by decide⟩

/-- C5: the framing decoder's fixed-size readiness is off by one — the
generated readiness test compares the buffer against `SIZE`, which
counts only the body, while decoding consumes the id byte plus `SIZE`
body bytes.  A buffer holding exactly `SIZE` bytes (here the lone
`PingReq` id byte `0x73`, `SIZE = 1`) is declared ready and decoding
fails with an `Io` error instead of returning "no frame yet"; an empty
buffer is not ready; with `SIZE + 1` bytes the packet decodes. -/
theorem c5_fixed_readiness_bug :
    decoderDecode [pingReqDesc] [0x73] = (.error (.Io ioEofMsg), []) ∧
    decoderDecode [pingReqDesc] [] = (.ok none, []) ∧
    decoderDecode [pingReqDesc] [0x73, 0x42] =
      (.ok (some (pingReqDesc, Val.tup [Val.word 1 0x42])), []) := by
  refine ⟨?_, by rfl, ?_⟩
  · simp [decoderDecode, pingReqDesc, fromPacketData, fromReader,
      deserializeSh, deserializeFields, readBE]
  · simp [decoderDecode, pingReqDesc, fromPacketData, fromReader,
      deserializeSh, deserializeFields, readBE, beVal]

/-! ## Phase whitelists (`define_codec` registrations in
`game/client/codecs.rs`) -/

/-- The CharList phase's inbound whitelist: empty (`recv []`). -/
def charListRecv : List Desc := []

/-- The InWorld phase's inbound whitelist, in declaration order.  The
repository's `chat.rs` and `housing.rs` are not in src, so the
`chat::OpenWindow` and `housing::ShowPublicContent` descriptors are
parameters here. -/
def inWorldRecv (dc dh : Desc) : List Desc :=
  [clickUseDesc, clickLookDesc, versionRespDesc, dc, clientFlagsDesc,
   languageDesc, windowSizeDesc, viewRangeDesc, dh, mobileQueryDesc,
   movementRequestDesc, pingReqDesc]

/-- C6: whitelist gating.  (1) Any frame the decoder produces carries a
descriptor of the phase's whitelist.  (2) A buffered packet whose
`(id, extended id)` pair matches no whitelist entry yields
`Data("Unexpected packet ID: …")` naming that pair.  (3) The extended
packet `0xBF/0x0F` (ClientFlags) decodes in the InWorld phase — for any
chat/housing descriptors that do not claim the pair `0xBF/0x0F`.
(4) The same bytes in the CharList phase (empty whitelist) yield the
unexpected-id error naming `0xBF(0x0F)`. -/
theorem c6_whitelist_gating :
    (∀ (wl : List Desc) (buf rest : List Nat) (d : Desc) (v : Val),
      decoderDecode wl buf = (.ok (some (d, v)), rest) → d ∈ wl) ∧
    (∀ (wl : List Desc) (pid : Nat) (tail : List Nat) (eid : Option Nat),
      eid = (if pid = 0xBF
             then some (beVal (((pid :: tail).drop 3).take 2))
             else none) →
      (pid = 0xBF → 5 ≤ (pid :: tail).length) →
      wl.find? (fun d => d.id == pid && d.extId == eid) = none →
      decoderDecode wl (pid :: tail) =
        (.error (.Data (unexpectedIdMsg pid eid)), pid :: tail)) ∧
    (∀ dc dh : Desc,
      (dc.id = 0xBF → dc.extId ≠ some 0x0F) →
      (dh.id = 0xBF → dh.extId ≠ some 0x0F) →
      decoderDecode (inWorldRecv dc dh)
        [0xBF, 0x00, 0x0A, 0x00, 0x0F, 0x0A, 0xFF, 0xFF, 0xFF, 0xFF] =
        (.ok (some (clientFlagsDesc,
          Val.tup [Val.word 1 0x0A, Val.word 4 0xFFFFFFFF])), [])) ∧
    decoderDecode charListRecv
      [0xBF, 0x00, 0x0A, 0x00, 0x0F, 0x0A, 0xFF, 0xFF, 0xFF, 0xFF] =
      (.error (.Data (unexpectedIdMsg 0xBF (some 0x0F))),
        [0xBF, 0x00, 0x0A, 0x00, 0x0F, 0x0A, 0xFF, 0xFF, 0xFF, 0xFF]) := by
  refine ⟨?_, ?_, ?_, ?_⟩
  · intro wl buf rest d v h
    cases buf with
    | nil =>
      simp only [decoderDecode] at h
      simp at h
    | cons pid tail =>
      simp only [decoderDecode] at h
      cases hE : (if pid = 0xBF then
          (if (pid :: tail).length < 5 then none
           else some (some (beVal (((pid :: tail).drop 3).take 2))))
          else some none : Option (Option Nat)) with
      | none => simp only [hE] at h; simp at h
      | some eid =>
        simp only [hE] at h
        cases hf : wl.find? (fun d2 => d2.id == pid && d2.extId == eid) with
        | none => simp only [hf] at h; simp at h
        | some d2 =>
          simp only [hf] at h
          split at h
          · rcases hfp : fromPacketData d2 (pid :: tail) with ⟨r1, rest1⟩
            cases r1 with
            | error e => simp only [hfp] at h; simp at h
            | ok v2 =>
              simp only [hfp] at h
              simp only [Prod.mk.injEq, Except.ok.injEq,
                Option.some.injEq] at h
              obtain ⟨⟨hde, -⟩, -⟩ := h
              subst hde
              exact List.mem_of_find?_eq_some hf
          · simp at h
  · intro wl pid tail eid heid h5 hf
    by_cases hb : pid = 0xBF
    · have hE : (if pid = 0xBF then
          (if (pid :: tail).length < 5 then none
           else some (some (beVal (((pid :: tail).drop 3).take 2))))
          else some none : Option (Option Nat)) = some eid := by
        rw [if_pos hb, if_neg (by have := h5 hb; omega)]
        rw [heid, if_pos hb]
      simp only [decoderDecode, hE, hf]
    · have hE : (if pid = 0xBF then
          (if (pid :: tail).length < 5 then none
           else some (some (beVal (((pid :: tail).drop 3).take 2))))
          else some none : Option (Option Nat)) = some eid := by
        rw [if_neg hb, heid, if_neg hb]
      simp only [decoderDecode, hE, hf]
  · intro dc dh hdc hdh
    have hdc2 : (dc.id == 0xBF && dc.extId == some 0x0F) = false := by
      by_cases h : dc.id = 0xBF
      · simp [h, hdc h]
      · simp [h]
    have hdh2 : (dh.id == 0xBF && dh.extId == some 0x0F) = false := by
      by_cases h : dh.id = 0xBF
      · simp [h, hdh h]
      · simp [h]
    simp [decoderDecode, inWorldRecv, List.find?, hdc2, hdh2,
      fromPacketData, clickUseDesc, clickLookDesc, versionRespDesc,
      clientFlagsDesc, languageDesc, windowSizeDesc, viewRangeDesc,
      mobileQueryDesc, movementRequestDesc, pingReqDesc, fromReader,
      deserializeSh, deserializeFields, readBE, beVal]
  · simp [decoderDecode, charListRecv, beVal]

/-- C6: the gating at a concrete instantiation — with `VersionReq`
standing in for the chat and housing descriptors, the ClientFlags bytes
decode in the InWorld phase. -/
theorem c6_whitelist_gating_witness :
    decoderDecode (inWorldRecv versionReqDesc versionReqDesc)
      [0xBF, 0x00, 0x0A, 0x00, 0x0F, 0x0A, 0xFF, 0xFF, 0xFF, 0xFF] =
      (.ok (some (clientFlagsDesc,
        Val.tup [Val.word 1 0x0A, Val.word 4 0xFFFFFFFF])), []) :=
  c6_whitelist_gating.2.2.1 versionReqDesc versionReqDesc
    (fun h => absurd h (by decide)) (fun h => absurd h (by decide))

/-- C7: `List<T,L>` serialization.  A count past the `L`-bit bound fails
with `Serialization("List length cannot fit into … bits")` before any
element is emitted; a count within the bound writes the `L`-bit
big-endian count followed by the elements' encodings. -/
theorem c7_list_count_bound (lw : Nat) (es : List Val) :
    (256 ^ lw ≤ es.length →
      serializeVal (.listPref lw es) =
        .error (.Serialization ("List length cannot fit into " ++
          toString (8 * lw) ++ " bits"))) ∧
    (es.length < 256 ^ lw → ∀ body, serializeList es = .ok body →
      serializeVal (.listPref lw es) =
        .ok (beBytes lw es.length ++ body)) := by
  constructor
  · intro h
    simp only [serializeVal]
    rw [if_neg (by omega)]
  · intro h body hb
    simp only [serializeVal]
    rw [if_pos h, hb]

/-- C7: the bound at a concrete input — 256 elements overflow a `u8`
length prefix. -/
theorem c7_list_count_bound_witness :
    serializeVal (.listPref 1 (List.replicate 256 (Val.word 1 0))) =
      .error (.Serialization ("List length cannot fit into " ++
        toString (8 * 1) ++ " bits")) :=
  (c7_list_count_bound 1 (List.replicate 256 (Val.word 1 0))).1
    (by rw [List.length_replicate]; norm_num)

/-- C8: `ListTerm` decoding.  (1) A terminator-sized zero peek stops the
loop: the terminator bytes are consumed from the stream and charged to
the budget, and no element is decoded.  (2) A non-zero peek leaves the
state untouched (peeks charge nothing) and is followed by decoding
exactly one element before the loop continues.  (3) End to end: the
encoding of a well-formed terminator list (elements then a
terminator-sized zero) decodes to exactly its elements, consuming and
charging the element bytes plus the terminator. -/
theorem c8_listTerm_decode :
    (∀ (el : Sh) (tw : Nat) (rest : List Nat) (k fuel : Nat),
      0 < fuel →
      deserializeTermList el tw fuel
        ⟨List.replicate tw 0 ++ rest, tw + k⟩ = (.ok [], ⟨rest, k⟩)) ∧
    (∀ (el : Sh) (tw fuel : Nat) (s s1 : DeState) (t : Nat) (v : Val),
      peekBE tw s = .ok t → t ≠ 0 → deserializeSh el s = (.ok v, s1) →
      s1.stream.length < s.stream.length →
      deserializeTermList el tw (fuel + 1) s =
        (match deserializeTermList el tw fuel s1 with
         | (.ok vs, s2) => (.ok (v :: vs), s2)
         | (.error e, s2) => (.error e, s2))) ∧
    (∀ (tw : Nat) (el : Sh) (es : List Val) (bs rest : List Nat) (k : Nat),
      noLNT el = true →
      wfVal (.listTerm tw el) (.listTerm tw es) = true →
      serializeVal (.listTerm tw es) = .ok bs →
      deserializeSh (.listTerm tw el) ⟨bs ++ rest, bs.length + k⟩ =
        (.ok (.listTerm tw es), ⟨rest, k⟩)) := by
  refine ⟨?_, ?_, ?_⟩
  · intro el tw rest k fuel hfuel
    obtain ⟨f, rfl⟩ : ∃ f, fuel = f + 1 := by
      cases fuel
      · omega
      · exact ⟨_, rfl⟩
    have hpeek : peekBE tw ⟨List.replicate tw 0 ++ rest, tw + k⟩ =
        .ok 0 := by
      rw [peekBE_of_le (by simp)]
      rw [show (⟨List.replicate tw 0 ++ rest, tw + k⟩ : DeState).stream =
        List.replicate tw 0 ++ rest from rfl]
      rw [List.take_left' (by simp : (List.replicate tw 0).length = tw),
        beVal_replicate_zero]
    rw [deserializeTermList, hpeek]
    simp [List.drop_left' (by simp : (List.replicate tw 0).length = tw),
      Nat.le_add_right, Nat.add_sub_cancel_left]
  · intro el tw fuel s s1 t v hpk ht hds hpr
    rw [deserializeTermList]
    simp only [hpk, if_neg ht, hds, if_pos hpr]
  · intro tw el es bs rest k hno hwf hser
    exact wf_rtA hwf (by simp only [noLNT]; exact hno) bs rest k hser

/-- C8: the terminator loop at a concrete input — the encoding of a
one-element `ListTerm<u16, u16>` (element `0x0005`, then the two-byte
zero terminator) decodes back to the element, consuming all four bytes
and leaving the trailing byte. -/
theorem c8_listTerm_decode_witness :
    deserializeSh (.listTerm 2 (.word 2))
      ⟨[0x00, 0x05, 0x00, 0x00] ++ [9], [0x00, 0x05, 0x00, 0x00].length
        + 1⟩ =
      (.ok (.listTerm 2 [.word 2 5]), ⟨[9], 1⟩) :=
  c8_listTerm_decode.2.2 2 (.word 2) [.word 2 5]
    [0x00, 0x05, 0x00, 0x00] [9] 1 (by rfl) (by decide) (by rfl)

/-! ## The InWorld connection loop (`in_world` in `src/uoverse-server/src/bin/game.rs`) -/

/-- What the `in_world` receive branch does with one `state.recv()`
result: answer on the socket (`state.send`), push into the
client-to-server world queue (`client.send`), or end the session. -/
inductive InWorldAction where
  | reply (d : Desc) (v : Val)
  | forward (d : Desc) (v : Val)
  | closeSession

/-- One iteration of the `in_world` receive branch over a decoded frame
(the frame's variant is its descriptor here): a `PingReq{val}` frame is
answered with `PingAck{val}` carrying the same body, any other frame is
forwarded to the world queue, and end-of-stream closes the session. -/
def inWorldStep : Option (Desc × Val) → InWorldAction
  | none => .closeSession
  | some (d, v) =>
    if d.name = "PingReq" then .reply pingAckDesc v else .forward d v

/-- C9: the ping handling of the `in_world` loop.  (1) A `PingReq`
frame is answered with a `PingAck` carrying the same value and is not
forwarded.  (2) Every other frame is forwarded unchanged.  (3) Any
forwarded frame is not a `PingReq` — the world loop never observes a
ping.  (4) End-of-stream closes the session.  (5) Scenario D's reply
bytes: the `PingAck` answering `[0x73, 0x42]` encodes to `[0x73, 0x42]`. -/
theorem c9_ping_answered_locally :
    (∀ v : Val, inWorldStep (some (pingReqDesc, v)) =
      .reply pingAckDesc v) ∧
    (∀ (d : Desc) (v : Val), d.name ≠ "PingReq" →
      inWorldStep (some (d, v)) = .forward d v) ∧
    (∀ (fr : Option (Desc × Val)) (d : Desc) (v : Val),
      inWorldStep fr = .forward d v → d.name ≠ "PingReq") ∧
    inWorldStep none = .closeSession ∧
    encodePacket pingAckDesc (Val.tup [Val.word 1 0x42]) =
      .ok [0x73, 0x42] := by
  refine ⟨?_, ?_, ?_, rfl, rfl⟩
  · intro v
    simp [inWorldStep, pingReqDesc]
  · intro d v h
    simp [inWorldStep, h]
  · intro fr d v h
    cases fr with
    | none => simp [inWorldStep] at h
    | some p =>
      obtain ⟨d2, v2⟩ := p
      by_cases hn : d2.name = "PingReq"
      · simp [inWorldStep, hn] at h
      · simp only [inWorldStep, if_neg hn] at h
        cases h
        exact hn

/-- C9: the loop at a concrete frame — a `ClickUse` frame is forwarded
to the world queue. -/
theorem c9_ping_answered_locally_witness :
    inWorldStep (some (clickUseDesc, Val.tup [Val.word 4 7])) =
      .forward clickUseDesc (Val.tup [Val.word 4 7]) :=
  c9_ping_answered_locally.2.1 clickUseDesc (Val.tup [Val.word 4 7])
    (by decide)

/-- C10: when the framing decoder produces no frame and no error ("need
more data"), it leaves the receive buffer exactly as it was — bytes are
only consumed when a complete packet decodes into a frame. -/
theorem c10_not_ready_keeps_buffer (wl : List Desc) (buf : List Nat)
    (h : (decoderDecode wl buf).1 = .ok none) :
    (decoderDecode wl buf).2 = buf := by
  cases buf with
  | nil => rfl
  | cons pid tail =>
    cases hE : (if pid = 0xBF then
        (if (pid :: tail).length < 5 then none
         else some (some (beVal (((pid :: tail).drop 3).take 2))))
        else some none : Option (Option Nat)) with
    | none =>
      simp only [decoderDecode, hE]
    | some eid =>
      cases hf : wl.find? (fun d2 => d2.id == pid && d2.extId == eid) with
      | none =>
        simp only [decoderDecode, hE, hf] at h
        simp at h
      | some d2 =>
        by_cases hready : (match d2.size with
            | some sz => decide (sz ≤ (pid :: tail).length)
            | none => decide (3 ≤ (pid :: tail).length) &&
                decide (beVal (((pid :: tail).drop 1).take 2) ≤
                  (pid :: tail).length)) = true
        · rcases hfp : fromPacketData d2 (pid :: tail) with ⟨r1, rest1⟩
          cases r1 with
          | error e =>
            simp only [decoderDecode, hE, hf, if_pos hready, hfp] at h
            simp at h
          | ok v2 =>
            simp only [decoderDecode, hE, hf, if_pos hready, hfp] at h
            simp at h
        · simp only [decoderDecode, hE, hf, if_neg hready]

/-- C10: the frame-effect at a concrete input — two buffered bytes of an
extended packet are not enough to peek its extended id, and the buffer
is left untouched. -/
theorem c10_not_ready_keeps_buffer_witness :
    (decoderDecode [pingReqDesc] [0xBF, 0x00]).2 = [0xBF, 0x00] :=
  c10_not_ready_keeps_buffer [pingReqDesc] [0xBF, 0x00] (by rfl)

end UOverse
